import Mathlib

/-!
Verification development for the `tensors` Go package (github.com/sharnoff/tensors).

The package's central type is `Interpreter`, which converts between flat linear
indices and n-dimensional coordinate points, and `generalMapApply`, a concurrent
traversal engine built on top of it.  This file gives a shallow embedding of the
relevant source functions (`doc.go`, `errors.go`, `mapapply.go`) and proves the
specification's claims about them.

Go machine integers are modelled as `Int` (no overflow is relevant to any claim:
all arithmetic stays within the small products involved), Go slices of `int` as
`List Int`, and fallible functions return `Except Err` / carry an `Option Err`
component.  Go's truncated integer division/remainder (`/`, `%`) is modelled by
`Int.tdiv` / `Int.tmod`.  In-place mutation of a point is modelled by returning
the final value of the mutated slice alongside the other results.
-/

deriving instance DecidableEq for Except

namespace Tensors

/-- Errors of the package (`errors.go`).  The named `Error` variables become
nullary constructors; the struct error types become constructors carrying the
same fields.  `userError` stands for an arbitrary caller-supplied error returned
by a `MapApply` visitor function (any distinct Go `error` values a visitor could
produce are represented by distinct tags). -/
inductive Err where
  | dimsValue (dims : List Int) (index : Nat)
  | lengthMismatch (variant : String) (is shouldBe : Nat)
  | pointOutOfBounds (point dims : List Int) (index : Nat)
  | zeroDims
  | zeroPoint
  | indexZero
  | indexSize
  | changeTooBig
  | pointOutOfSync
  | nilFunction
  | userError (tag : Nat)
deriving DecidableEq

/-- Interpreter struct (`doc.go`): `Dims` are the dimension sizes, `Sizes` the
running products `Sizes[i] = Dims[0]*...*Dims[i]`, both set at construction. -/
structure Interpreter where
  Dims : List Int
  Sizes : List Int
deriving DecidableEq

/-- Loop `for i, d := range dims { if d <= 0 { return DimsValueError{dims, i} } }`
of `NewInterpreterSafe`: first position (counting from `i`) holding a
non-positive entry. -/
def firstNonPosAux : List Int → Nat → Option Nat
  | [], _ => none
  | d :: ds, i => if d ≤ 0 then some i else firstNonPosAux ds (i + 1)

/-- Size-table construction loop of `NewInterpreterSafe`:
`sizes[0] = dims[0]; sizes[i] = sizes[i-1] * dims[i]`. -/
def mkSizes : List Int → List Int
  | [] => []
  | d :: ds => List.scanl (· * ·) d ds

/-- `NewInterpreterSafe` (`doc.go`): rejects an empty dims vector with
`ErrZeroDims`, a non-positive entry with `DimsValueError` at the first offending
position, and otherwise builds the running-product size table. -/
def NewInterpreterSafe (dims : List Int) : Except Err Interpreter :=
  if dims.length = 0 then .error .zeroDims
  else
    match firstNonPosAux dims 0 with
    | some i => .error (.dimsValue dims i)
    | none => .ok ⟨dims, mkSizes dims⟩

/-- Loop `for i, v := range point { if v < 0 || v >= in.Dims[i] { ... } }` of
`CheckPoint`: first position whose value is out of bounds for its dimension.
(`CheckPoint` only reaches this loop once the lengths agree, so the recursion
walks both lists in step.) -/
def firstOOBAux : List Int → List Int → Nat → Option Nat
  | v :: vs, d :: ds, i => if v < 0 ∨ v ≥ d then some i else firstOOBAux vs ds (i + 1)
  | _, _, _ => none

/-- `Interpreter.CheckPoint` (`doc.go`): `ErrZeroPoint` for an empty point,
`LengthMismatchError` when the point's length differs from `len(Sizes)`, and
`PointOutOfBoundsError` at the first out-of-range coordinate. -/
def CheckPoint (itp : Interpreter) (point : List Int) : Option Err :=
  if point.length = 0 then some .zeroPoint
  else if point.length ≠ itp.Sizes.length then
    some (.lengthMismatch "point" point.length itp.Sizes.length)
  else
    match firstOOBAux point itp.Dims 0 with
    | some i => some (.pointOutOfBounds point itp.Dims i)
    | none => none

/-- `Interpreter.Size` (`doc.go`): `in.Sizes[len(in.Sizes)-1]`. -/
def Size (itp : Interpreter) : Int :=
  itp.Sizes.getD (itp.Sizes.length - 1) 0

/-- `Interpreter.CheckIndex` (`doc.go`). -/
def CheckIndex (itp : Interpreter) (index : Int) : Option Err :=
  if index < 0 then some .indexZero
  else if index ≥ Size itp then some .indexSize
  else none

/-- Loop `for i := 1; i < len(in.Sizes); i++ { index += point[i] * in.Sizes[i-1] }`
of `IndexFast`; `i` is the loop counter, the accumulator is `index`, and the
first argument counts the remaining iterations (`len(in.Sizes) - i`), which
makes the recursion structural. -/
def indexFastAux (sizes point : List Int) : Nat → Nat → Int → Int
  | 0, _, index => index
  | n + 1, i, index =>
      indexFastAux sizes point n (i + 1) (index + point.getD i 0 * sizes.getD (i - 1) 0)

/-- `Interpreter.IndexFast` (`doc.go`): mixed-radix encode, dimension 0 least
significant.  The loop runs from `i = 1` while `i < len(in.Sizes)`, hence
`len(in.Sizes) - 1` iterations. -/
def IndexFast (itp : Interpreter) (point : List Int) : Int :=
  indexFastAux itp.Sizes point (itp.Sizes.length - 1) 1 (point.getD 0 0)

/-- `Interpreter.IndexSafe` (`doc.go`): `CheckPoint` then `IndexFast`. -/
def IndexSafe (itp : Interpreter) (point : List Int) : Except Err Int :=
  match CheckPoint itp point with
  | some e => .error e
  | none => .ok (IndexFast itp point)

/-- Loop `for i := len(p)-1; i >= 1; i-- { p[i] = index / in.Sizes[i-1]; index %= in.Sizes[i-1] }`
of `PointSafe`, followed by `p[0] = index`.  The first argument of the recursion
is the loop counter `i`; filling array slot `i` top-down becomes prepending to
the accumulator holding slots `i+1 .. N-1`. -/
def pointSafeAux (sizes : List Int) : Nat → Int → List Int → List Int
  | 0, index, acc => index :: acc
  | i + 1, index, acc =>
      pointSafeAux sizes i (index.tmod (sizes.getD i 0))
        (index.tdiv (sizes.getD i 0) :: acc)

/-- `Interpreter.PointSafe` (`doc.go`): `CheckIndex`, then the most-significant-
first decode loop into a fresh point of length `len(in.Dims)`. -/
def PointSafe (itp : Interpreter) (index : Int) : Except Err (List Int) :=
  match CheckIndex itp index with
  | some e => .error e
  | none => .ok (pointSafeAux itp.Sizes (itp.Dims.length - 1) index [])

/-- `Interpreter.Point` (`doc.go`): panics where `PointSafe` errors; the panic
outcome is modelled as the junk value `[]` (every use in the claims is guarded
so the panic is unreachable). -/
def Point (itp : Interpreter) (index : Int) : List Int :=
  match PointSafe itp index with
  | .ok p => p
  | .error _ => []

/-- Loop of `IncrementFast` (`doc.go`), walking `Dims` and the point together
from dimension 0: increment the digit, stop if it is still in range, otherwise
zero it and carry; returns `false` (with the point wrapped to all-zero) when the
carry leaves the last dimension.  A point shorter than `Dims` would panic in Go;
that unreachable case yields a junk value here. -/
def incrementFastAux : List Int → List Int → Bool × List Int
  | [], p => (true, p)
  | _ :: _, [] => (true, [])
  | d :: ds, x :: xs =>
    if x + 1 < d then (true, (x + 1) :: xs)
    else
      match ds, xs with
      | [], _ => (false, 0 :: xs)
      | _ :: _, _ =>
        let r := incrementFastAux ds xs
        (r.1, 0 :: r.2)

/-- `Interpreter.IncrementFast` (`doc.go`). -/
def IncrementFast (itp : Interpreter) (point : List Int) : Bool × List Int :=
  incrementFastAux itp.Dims point

/-- `Interpreter.IncrementSafe` (`doc.go`): `CheckPoint`, then `IncrementFast`.
The returned triple is (continue flag, error, final value of the point). -/
def IncrementSafe (itp : Interpreter) (point : List Int) : Bool × Option Err × List Int :=
  match CheckPoint itp point with
  | some e => (false, some e, point)
  | none =>
    let r := IncrementFast itp point
    (r.1, none, r.2)

/-- Loop of `DecrementFast` (`doc.go`), the decreasing analog of
`incrementFastAux`: decrement the digit, stop if still non-negative, otherwise
set it to `Dims[i] - 1` and borrow. -/
def decrementFastAux : List Int → List Int → Bool × List Int
  | [], p => (true, p)
  | _ :: _, [] => (true, [])
  | d :: ds, x :: xs =>
    if x - 1 ≥ 0 then (true, (x - 1) :: xs)
    else
      match ds, xs with
      | [], _ => (false, (d - 1) :: xs)
      | _ :: _, _ =>
        let r := decrementFastAux ds xs
        (r.1, (d - 1) :: r.2)

/-- `Interpreter.DecrementFast` (`doc.go`). -/
def DecrementFast (itp : Interpreter) (point : List Int) : Bool × List Int :=
  decrementFastAux itp.Dims point

/-- `Interpreter.DecrementSafe` (`doc.go`). -/
def DecrementSafe (itp : Interpreter) (point : List Int) : Bool × Option Err × List Int :=
  match CheckPoint itp point with
  | some e => (false, some e, point)
  | none =>
    let r := DecrementFast itp point
    (r.1, none, r.2)

/-- Go's `copy(dst, src)`: overwrite the first `min(len dst, len src)` entries
of `dst` with those of `src`, leaving the rest of `dst` in place. -/
def copyList (dst src : List Int) : List Int :=
  src.take dst.length ++ dst.drop src.length

/-- `Interpreter.IncreaseBySafe` (`doc.go`): `change == 0` is a no-op; `±1`
delegates to `IncrementSafe`/`DecrementSafe`; otherwise index the point, reject
`|change| ≥ Size` with `ErrChangeTooBig`, report plain overflow with `false`,
and else decode the new index and copy it over the point. -/
def IncreaseBySafe (itp : Interpreter) (point : List Int) (change : Int) :
    Bool × Option Err × List Int :=
  if change = 0 then (true, none, point)
  else if change = 1 then IncrementSafe itp point
  else if change = -1 then DecrementSafe itp point
  else
    match IndexSafe itp point with
    | .error e => (false, some e, point)
    | .ok index =>
      if change ≥ Size itp then (false, some .changeTooBig, point)
      else if change ≤ -(Size itp) then (false, some .changeTooBig, point)
      else
        let newIndex := index + change
        if newIndex < 0 ∨ newIndex ≥ Size itp then (false, none, point)
        else (true, none, copyList point (Point itp newIndex))

/-! ### Specification-side mixed-radix arithmetic

Structural encode/decode functions over the dimension vector, used to state and
prove the conversion claims.  `encodeDims` and `decodeDims` follow the spec's
description of the positional system (dimension 0 least significant); the
bridging lemmas below connect them to the loop-shaped source translations. -/

/-- Mixed-radix encode, least-significant dimension first:
`encodeDims [d0, d1, ...] [x0, x1, ...] = x0 + d0 * (x1 + d1 * (...))`. -/
def encodeDims : List Int → List Int → Int
  | _, [] => 0
  | [], _ :: _ => 0
  | d :: ds, x :: xs => x + d * encodeDims ds xs

/-- Mixed-radix decode, least-significant dimension first. -/
def decodeDims : List Int → Int → List Int
  | [], _ => []
  | d :: ds, i => i % d :: decodeDims ds (i / d)

/-- All dimensions are positive. -/
def PosDims (dims : List Int) : Prop := ∀ d ∈ dims, 0 < d

/-- The point `p` lies inside the box described by `dims` (componentwise
`0 ≤ p[i] < dims[i]`, equal lengths). -/
def PointInBounds (dims p : List Int) : Prop :=
  List.Forall₂ (fun x d => 0 ≤ x ∧ x < d) p dims

theorem PointInBounds.length_eq {dims p : List Int} (h : PointInBounds dims p) :
    p.length = dims.length := List.Forall₂.length_eq h

/-- Truncated and Euclidean division agree on the nonnegative operands used by
the decode loop. -/
theorem tdiv_tmod_eq {a b : Int} (ha : 0 ≤ a) (hb : 0 ≤ b) :
    a.tdiv b = a / b ∧ a.tmod b = a % b :=
  ⟨Int.tdiv_eq_ediv ha hb, Int.tmod_eq_emod ha hb⟩

theorem ediv_ediv {a b c : Int} (hb : 0 < b) (hc : 0 < c) :
    a / b / c = a / (b * c) := by
  have hbc : (0:Int) < b * c := mul_pos hb hc
  obtain ⟨q, r, hqr, hr0, hrlt⟩ :
      ∃ q r : Int, a = r + q * (b * c) ∧ 0 ≤ r ∧ r < b * c :=
    ⟨a / (b * c), a % (b * c), by
        rw [add_comm, mul_comm]
        exact (Int.ediv_add_emod a (b * c)).symm,
      Int.emod_nonneg a hbc.ne', Int.emod_lt_of_pos a hbc⟩
  have h1 : a / b = r / b + q * c := by
    rw [hqr, show r + q * (b * c) = r + (q * c) * b by ring,
      Int.add_mul_ediv_right _ _ hb.ne']
  have h2 : a / (b * c) = q := by
    rw [hqr, Int.add_mul_ediv_right _ _ hbc.ne',
      Int.ediv_eq_zero_of_lt hr0 hrlt, zero_add]
  have hrb : r / b < c := by
    rw [Int.ediv_lt_iff_lt_mul hb]
    exact hrlt.trans_eq (mul_comm b c)
  rw [h1, h2, Int.add_mul_ediv_right _ _ hc.ne',
    Int.ediv_eq_zero_of_lt (Int.ediv_nonneg hr0 hb.le) hrb, zero_add]

theorem emod_mul_ediv {a b c : Int} (hb : 0 < b) (hc : 0 < c) :
    a % (b * c) / b = a / b % c := by
  have hbc : (0:Int) < b * c := mul_pos hb hc
  have h1 : a / b = a % (b * c) / b + a / (b * c) * c := by
    conv_lhs => rw [← Int.emod_add_ediv a (b * c)]
    rw [show a % (b * c) + b * c * (a / (b * c)) =
      a % (b * c) + (c * (a / (b * c))) * b by ring,
      Int.add_mul_ediv_right _ _ hb.ne']
    ring
  have hub : a % (b * c) / b < c := by
    rw [Int.ediv_lt_iff_lt_mul hb]
    exact (Int.emod_lt_of_pos a hbc).trans_eq (mul_comm b c)
  have hlb : 0 ≤ a % (b * c) / b :=
    Int.ediv_nonneg (Int.emod_nonneg a hbc.ne') hb.le
  rw [h1, Int.add_mul_emod_self, Int.emod_eq_of_lt hlb hub]

theorem decodeDims_inBounds {dims : List Int} (hd : PosDims dims) (i : Int) :
    PointInBounds dims (decodeDims dims i) := by
  induction dims generalizing i with
  | nil => exact List.Forall₂.nil
  | cons d ds ih =>
    have hdpos : 0 < d := hd d (List.mem_cons_self d ds)
    refine List.forall₂_cons.mpr ⟨⟨Int.emod_nonneg i hdpos.ne', Int.emod_lt_of_pos i hdpos⟩, ?_⟩
    exact ih (fun x hx => hd x (List.mem_cons_of_mem _ hx)) _

theorem encodeDims_decodeDims {dims : List Int} (hd : PosDims dims) {i : Int}
    (h0 : 0 ≤ i) (hlt : i < dims.prod) : encodeDims dims (decodeDims dims i) = i := by
  induction dims generalizing i with
  | nil =>
    simp only [List.prod_nil] at hlt
    simp only [decodeDims, encodeDims]
    omega
  | cons d ds ih =>
    have hdpos : 0 < d := hd d (List.mem_cons_self d ds)
    have hps : PosDims ds := fun x hx => hd x (List.mem_cons_of_mem _ hx)
    simp only [decodeDims, encodeDims]
    rw [ih hps (Int.ediv_nonneg h0 hdpos.le) ?ub]
    · exact Int.emod_add_ediv i d
    case ub =>
      rw [Int.ediv_lt_iff_lt_mul hdpos]
      calc i < (d :: ds).prod := hlt
        _ = ds.prod * d := by rw [List.prod_cons]; ring

theorem encodeDims_nonneg {dims p : List Int} (h : PointInBounds dims p) :
    0 ≤ encodeDims dims p := by
  induction h with
  | nil => simp [encodeDims]
  | @cons x d p' ds' hx h' ih =>
    simp only [encodeDims]
    have hd : 0 < d := hx.1.trans_lt hx.2
    linarith [hx.1, mul_nonneg hd.le ih]

theorem encodeDims_lt {dims p : List Int} (h : PointInBounds dims p) :
    encodeDims dims p < dims.prod := by
  induction h with
  | nil => simp [encodeDims]
  | @cons x d p' ds' hx h' ih =>
    simp only [encodeDims, List.prod_cons]
    have h0 : 0 ≤ encodeDims ds' p' := encodeDims_nonneg h'
    nlinarith [hx.1, hx.2]

theorem decodeDims_encodeDims {dims p : List Int} (h : PointInBounds dims p) :
    decodeDims dims (encodeDims dims p) = p := by
  induction h with
  | nil => simp [decodeDims, encodeDims]
  | @cons x d p' ds' hx h' ih =>
    have hd : 0 < d := hx.1.trans_lt hx.2
    simp only [encodeDims, decodeDims, List.cons.injEq]
    constructor
    · rw [Int.add_mul_emod_self_left, Int.emod_eq_of_lt hx.1 hx.2]
    · rw [Int.add_mul_ediv_left _ _ hd.ne', Int.ediv_eq_zero_of_lt hx.1 hx.2, zero_add]
      exact ih

/-! ### The size table and valid interpreters -/

theorem mkSizes_length (dims : List Int) : (mkSizes dims).length = dims.length := by
  cases dims with
  | nil => rfl
  | cons d ds => simp [mkSizes, List.length_scanl]

theorem scanl_mul_getD (a : Int) (l : List Int) (m : Nat) (hm : m ≤ l.length) :
    (List.scanl (· * ·) a l).getD m 0 = a * (l.take m).prod := by
  induction l generalizing a m with
  | nil =>
    obtain rfl : m = 0 := Nat.le_zero.mp hm
    simp [List.scanl]
  | cons c l' ih =>
    cases m with
    | zero => simp [List.scanl]
    | succ m =>
      rw [List.scanl_cons, List.singleton_append, List.getD_cons_succ,
        List.take_succ_cons, List.prod_cons,
        ih (a * c) m (by simp at hm; omega)]
      ring

theorem mkSizes_getD (dims : List Int) (j : Nat) (hj : j < dims.length) :
    (mkSizes dims).getD j 0 = (dims.take (j + 1)).prod := by
  cases dims with
  | nil => simp at hj
  | cons d ds =>
    rw [mkSizes, scanl_mul_getD d ds j (by simp at hj; omega),
      List.take_succ_cons, List.prod_cons]

theorem firstNonPosAux_eq_none (l : List Int) (i : Nat) :
    firstNonPosAux l i = none ↔ ∀ d ∈ l, 0 < d := by
  induction l generalizing i with
  | nil => simp [firstNonPosAux]
  | cons d ds ih =>
    simp only [firstNonPosAux, List.mem_cons]
    split_ifs with hle
    · simp only [reduceCtorEq, false_iff]
      intro hall
      exact absurd (hall d (Or.inl rfl)) (by omega)
    · rw [ih]
      constructor
      · intro hall x hx
        rcases hx with rfl | hx
        · omega
        · exact hall x hx
      · intro hall x hx
        exact hall x (Or.inr hx)

/-- Unpacking a successful construction: the interpreter holds exactly the given
dims and the running-product table, the dims vector is nonempty, and every
dimension is positive. -/
theorem newInterpreterSafe_ok {dims : List Int} {itp : Interpreter}
    (h : NewInterpreterSafe dims = .ok itp) :
    itp.Dims = dims ∧ itp.Sizes = mkSizes dims ∧ dims ≠ [] ∧ PosDims dims := by
  unfold NewInterpreterSafe at h
  split_ifs at h with hlen
  revert h
  split
  · intro h
    exact absurd h (by simp)
  · rename_i hnone
    intro h
    obtain rfl : (⟨dims, mkSizes dims⟩ : Interpreter) = itp := by
      simpa using h
    refine ⟨rfl, rfl, ?_, ?_⟩
    · intro hnil
      rw [hnil] at hlen
      exact hlen rfl
    · exact (firstNonPosAux_eq_none dims 0).mp hnone

theorem prodDims_pos {dims : List Int} (hd : PosDims dims) : 0 < dims.prod := by
  induction dims with
  | nil => simp
  | cons d ds ih =>
    rw [List.prod_cons]
    exact mul_pos (hd d (List.mem_cons_self d ds))
      (ih fun x hx => hd x (List.mem_cons_of_mem _ hx))

theorem size_eq_prod {dims : List Int} {itp : Interpreter}
    (h : NewInterpreterSafe dims = .ok itp) : Size itp = dims.prod := by
  obtain ⟨-, hs, hne, -⟩ := newInterpreterSafe_ok h
  have hN : 0 < dims.length := List.length_pos.mpr hne
  rw [Size, hs, mkSizes_length, mkSizes_getD dims (dims.length - 1) (by omega)]
  rw [show dims.length - 1 + 1 = dims.length by omega, List.take_length]

theorem size_pos {dims : List Int} {itp : Interpreter}
    (h : NewInterpreterSafe dims = .ok itp) : 0 < Size itp := by
  rw [size_eq_prod h]
  exact prodDims_pos (newInterpreterSafe_ok h).2.2.2

/-! ### CheckPoint and CheckIndex -/

theorem firstOOBAux_eq_none {p ds : List Int} (hl : p.length = ds.length) (i : Nat) :
    firstOOBAux p ds i = none ↔ PointInBounds ds p := by
  induction p generalizing ds i with
  | nil =>
    obtain rfl : ds = [] := by
      cases ds
      · rfl
      · simp at hl
    simp [firstOOBAux, PointInBounds]
  | cons v vs ih =>
    cases ds with
    | nil => simp at hl
    | cons d ds' =>
      simp only [firstOOBAux, PointInBounds, List.forall₂_cons]
      split_ifs with hoob
      · simp only [reduceCtorEq, false_iff]
        rintro ⟨⟨h1, h2⟩, -⟩
        rcases hoob with h | h <;> omega
      · rw [ih (by simpa using hl)]
        push_neg at hoob
        rw [PointInBounds]
        constructor
        · exact fun hall => ⟨⟨hoob.1, hoob.2⟩, hall⟩
        · exact fun hall => hall.2

theorem checkPoint_none_iff {dims : List Int} {itp : Interpreter}
    (h : NewInterpreterSafe dims = .ok itp) (p : List Int) :
    CheckPoint itp p = none ↔ PointInBounds dims p := by
  obtain ⟨hD, hS, hne, -⟩ := newInterpreterSafe_ok h
  rw [CheckPoint, hD, hS, mkSizes_length]
  split_ifs with h0 hlen
  · simp only [reduceCtorEq, false_iff]
    intro hb
    have := hb.length_eq
    rw [List.length_eq_zero.mp h0] at this
    exact hne (List.length_eq_zero.mp this.symm)
  · simp only [reduceCtorEq, false_iff]
    exact fun hb => hlen hb.length_eq
  · rw [← firstOOBAux_eq_none (not_ne_iff.mp hlen) 0]
    cases hfo : firstOOBAux p dims 0 <;> simp [hfo]

theorem checkIndex_none_iff (itp : Interpreter) (i : Int) :
    CheckIndex itp i = none ↔ 0 ≤ i ∧ i < Size itp := by
  rw [CheckIndex]
  split_ifs with h1 h2 <;> simp <;> omega

/-! ### The decode loop computes the mixed-radix digits -/

theorem posDims_append_left {l₁ l₂ : List Int} (h : PosDims (l₁ ++ l₂)) : PosDims l₁ :=
  fun x hx => h x (List.mem_append_left _ hx)

theorem posDims_take {dims : List Int} (h : PosDims dims) (n : Nat) :
    PosDims (dims.take n) := fun x hx => h x (List.mem_of_mem_take hx)

theorem decodeDims_snoc {l : List Int} {d : Int} (hd : PosDims (l ++ [d])) {i : Int}
    (h0 : 0 ≤ i) (hlt : i < (l ++ [d]).prod) :
    decodeDims (l ++ [d]) i = decodeDims l (i % l.prod) ++ [i / l.prod] := by
  induction l generalizing i with
  | nil =>
    have hdpos : 0 < d := hd d (by simp)
    have hlt' : i < d := by simpa using hlt
    show (i % d) :: decodeDims [] (i / d) = decodeDims [] (i % [].prod) ++ [i / [].prod]
    simp only [decodeDims, List.prod_nil, List.nil_append]
    rw [Int.emod_eq_of_lt h0 hlt', Int.ediv_one]
  | cons c l' ih =>
    have hcpos : 0 < c := hd c (by simp)
    have hl' : PosDims (l' ++ [d]) := fun x hx => hd x (by simp at hx ⊢; tauto)
    have hP' : 0 < l'.prod := prodDims_pos (posDims_append_left hl')
    have hIH := ih hl' (i := i / c) (Int.ediv_nonneg h0 hcpos.le) ?bnd
    case bnd =>
      rw [Int.ediv_lt_iff_lt_mul hcpos]
      calc i < ((c :: l') ++ [d]).prod := hlt
        _ = (l' ++ [d]).prod * c := by rw [List.cons_append, List.prod_cons]; ring
    show (i % c) :: decodeDims (l' ++ [d]) (i / c) = _
    rw [hIH]
    have hmm : i % (c * l'.prod) % c = i % c :=
      Int.emod_emod_of_dvd i (dvd_mul_right c l'.prod)
    have hmd : i % (c * l'.prod) / c = i / c % l'.prod := emod_mul_ediv hcpos hP'
    have hdd : i / c / l'.prod = i / (c * l'.prod) := ediv_ediv hcpos hP'
    simp only [List.prod_cons, decodeDims, List.cons_append, List.cons.injEq]
    rw [hmm, hmd, hdd]
    simp

theorem pointSafeAux_eq {dims : List Int} (hd : PosDims dims) :
    ∀ (j : Nat) (i : Int) (acc : List Int), j < dims.length → 0 ≤ i →
      i < (dims.take (j + 1)).prod →
      pointSafeAux (mkSizes dims) j i acc = decodeDims (dims.take (j + 1)) i ++ acc := by
  intro j
  induction j with
  | zero =>
    intro i acc hj h0 hlt
    cases dims with
    | nil => simp at hj
    | cons d ds =>
      have hdpos : 0 < d := hd d (List.mem_cons_self d ds)
      simp only [List.take_succ_cons, List.take_zero, List.prod_cons, List.prod_nil,
        mul_one] at hlt
      simp only [pointSafeAux, List.take_succ_cons, List.take_zero, decodeDims]
      rw [Int.emod_eq_of_lt h0 hlt]
      simp
  | succ j ih =>
    intro i acc hj h0 hlt
    have hjN : j < dims.length := by omega
    have hP : (mkSizes dims).getD j 0 = (dims.take (j + 1)).prod := mkSizes_getD dims j hjN
    have hPpos : 0 < (dims.take (j + 1)).prod := prodDims_pos (posDims_take hd _)
    have htd : i.tdiv ((mkSizes dims).getD j 0) = i / (dims.take (j + 1)).prod := by
      rw [hP]; exact Int.tdiv_eq_ediv h0 hPpos.le
    have htm : i.tmod ((mkSizes dims).getD j 0) = i % (dims.take (j + 1)).prod := by
      rw [hP]; exact Int.tmod_eq_emod h0 hPpos.le
    have htk : dims.take (j + 2) = dims.take (j + 1) ++ [dims.getD (j + 1) 0] := by
      rw [List.take_succ]
      congr 1
      rw [List.getD_eq_getElem?_getD]
      cases hg : dims[j + 1]? with
      | none => exact absurd (List.getElem?_eq_none_iff.mp hg) (by omega)
      | some x => simp
    show pointSafeAux (mkSizes dims) j (i.tmod _) (i.tdiv _ :: acc) = _
    rw [htd, htm,
      ih (i % (dims.take (j + 1)).prod) _ hjN (Int.emod_nonneg i hPpos.ne')
        (Int.emod_lt_of_pos i hPpos),
      htk, decodeDims_snoc (htk ▸ posDims_take hd (j + 2)) h0 (htk ▸ hlt)]
    simp

theorem pointSafe_ok {dims : List Int} {itp : Interpreter}
    (h : NewInterpreterSafe dims = .ok itp) {i : Int}
    (h0 : 0 ≤ i) (hlt : i < Size itp) :
    PointSafe itp i = .ok (decodeDims dims i) := by
  obtain ⟨hD, hS, hne, hpos⟩ := newInterpreterSafe_ok h
  have hN : 0 < dims.length := List.length_pos.mpr hne
  have hck : CheckIndex itp i = none := (checkIndex_none_iff itp i).mpr ⟨h0, hlt⟩
  rw [PointSafe, hck, hD, hS]
  rw [size_eq_prod h] at hlt
  have := pointSafeAux_eq hpos (dims.length - 1) i [] (by omega) h0
    (by rw [show dims.length - 1 + 1 = dims.length by omega, List.take_length]; exact hlt)
  rw [this, show dims.length - 1 + 1 = dims.length by omega, List.take_length,
    List.append_nil]

theorem point_eq {dims : List Int} {itp : Interpreter}
    (h : NewInterpreterSafe dims = .ok itp) {i : Int}
    (h0 : 0 ≤ i) (hlt : i < Size itp) :
    Point itp i = decodeDims dims i := by
  rw [Point, pointSafe_ok h h0 hlt]

/-! ### The encode loop computes the mixed-radix value -/

theorem indexFastAux_eq_sum (sizes point : List Int) :
    ∀ (n i : Nat) (idx : Int),
      indexFastAux sizes point n i idx =
        idx + ∑ k ∈ Finset.range n, point.getD (i + k) 0 * sizes.getD (i + k - 1) 0 := by
  intro n
  induction n with
  | zero => simp [indexFastAux]
  | succ n ih =>
    intro i idx
    rw [indexFastAux, ih (i + 1), Finset.sum_range_succ' _ n]
    have hre : ∀ k : Nat, i + 1 + k = i + (k + 1) := by omega
    rw [Finset.sum_congr rfl fun k _ => by rw [hre k]]
    simp only [Nat.add_zero]
    ring

theorem encodeDims_eq_sum {dims p : List Int} (hl : p.length = dims.length) :
    encodeDims dims p =
      p.getD 0 0 + ∑ k ∈ Finset.range (dims.length - 1),
        p.getD (k + 1) 0 * (dims.take (k + 1)).prod := by
  induction dims generalizing p with
  | nil =>
    obtain rfl : p = [] := List.length_eq_zero.mp hl
    simp [encodeDims]
  | cons d ds ih =>
    cases p with
    | nil => simp at hl
    | cons x xs =>
      simp only [List.length_cons] at hl
      have hxs : xs.length = ds.length := by omega
      show x + d * encodeDims ds xs = _
      rw [ih hxs]
      simp only [List.getD_cons_zero, List.getD_cons_succ, List.length_cons,
        Nat.add_sub_cancel]
      cases hds : ds.length with
      | zero =>
        obtain rfl : ds = [] := List.length_eq_zero.mp hds
        obtain rfl : xs = [] := List.length_eq_zero.mp (by omega)
        simp
      | succ m =>
        rw [Finset.sum_range_succ' _ m]
        simp only [Nat.add_sub_cancel, List.getD_cons_succ, List.getD_cons_zero,
          List.take_succ_cons, List.prod_cons, List.take_zero, List.prod_nil, mul_one]
        rw [mul_add, Finset.mul_sum]
        have hsum : (∑ k ∈ Finset.range m, d * (xs.getD (k + 1) 0 * (List.take (k + 1) ds).prod))
            = ∑ k ∈ Finset.range m, xs.getD (k + 1) 0 * (d * (List.take (k + 1) ds).prod) :=
          Finset.sum_congr rfl fun k _ => by ring
        rw [hsum]
        ring

theorem indexFast_eq_encode {dims : List Int} {itp : Interpreter}
    (h : NewInterpreterSafe dims = .ok itp) {p : List Int}
    (hl : p.length = dims.length) :
    IndexFast itp p = encodeDims dims p := by
  obtain ⟨hD, hS, hne, hpos⟩ := newInterpreterSafe_ok h
  rw [IndexFast, hS, mkSizes_length, indexFastAux_eq_sum, encodeDims_eq_sum hl]
  congr 1
  refine Finset.sum_congr rfl fun k hk => ?_
  have hkN : k < dims.length - 1 := Finset.mem_range.mp hk
  rw [show 1 + k = k + 1 by omega, Nat.add_sub_cancel,
    mkSizes_getD dims k (by omega)]

theorem indexSafe_ok {dims : List Int} {itp : Interpreter}
    (h : NewInterpreterSafe dims = .ok itp) {p : List Int}
    (hb : PointInBounds dims p) :
    IndexSafe itp p = .ok (encodeDims dims p) := by
  rw [IndexSafe, (checkPoint_none_iff h p).mpr hb,
    indexFast_eq_encode h hb.length_eq]

/-! ### Increment: successor and wrap-around -/

theorem decodeDims_zero {dims : List Int} (hd : PosDims dims) :
    decodeDims dims 0 = List.replicate dims.length 0 := by
  induction dims with
  | nil => rfl
  | cons d ds ih =>
    have hdpos : 0 < d := hd d (List.mem_cons_self d ds)
    show (0 % d) :: decodeDims ds (0 / d) = _
    rw [Int.zero_emod, Int.zero_ediv, ih fun x hx => hd x (List.mem_cons_of_mem _ hx)]
    rfl

theorem encodeDims_maxPt (dims : List Int) :
    encodeDims dims (dims.map (· - 1)) = dims.prod - 1 := by
  induction dims with
  | nil => simp [encodeDims]
  | cons d ds ih =>
    show (d - 1) + d * encodeDims ds (ds.map (· - 1)) = _
    rw [ih, List.prod_cons]
    ring

theorem maxPt_inBounds {dims : List Int} (hd : PosDims dims) :
    PointInBounds dims (dims.map (· - 1)) := by
  induction dims with
  | nil => exact List.Forall₂.nil
  | cons d ds ih =>
    have hdpos : 0 < d := hd d (List.mem_cons_self d ds)
    refine List.forall₂_cons.mpr ⟨?_, ih fun x hx => hd x (List.mem_cons_of_mem _ hx)⟩
    show 0 ≤ d - 1 ∧ d - 1 < d
    omega

theorem encode_eq_max_iff {dims p : List Int} (hd : PosDims dims)
    (hb : PointInBounds dims p) :
    encodeDims dims p = dims.prod - 1 ↔ p = dims.map (· - 1) := by
  constructor
  · intro he
    have h1 : decodeDims dims (encodeDims dims p) = p := decodeDims_encodeDims hb
    have h2 : decodeDims dims (encodeDims dims (dims.map (· - 1))) = dims.map (· - 1) :=
      decodeDims_encodeDims (maxPt_inBounds hd)
    rw [he] at h1
    rw [encodeDims_maxPt] at h2
    rw [← h1, ← h2]
  · intro hp
    rw [hp, encodeDims_maxPt]

theorem incrementFastAux_max {dims : List Int} (hne : dims ≠ []) :
    incrementFastAux dims (dims.map (· - 1)) = (false, List.replicate dims.length 0) := by
  induction dims with
  | nil => exact absurd rfl hne
  | cons d ds ih =>
    show incrementFastAux (d :: ds) ((d - 1) :: ds.map (· - 1)) = _
    simp only [incrementFastAux]
    rw [if_neg (by omega)]
    cases ds with
    | nil => rfl
    | cons c ds' =>
      rw [ih (by simp)]
      rfl

theorem incrementFastAux_succ {dims p : List Int} (hb : PointInBounds dims p)
    (hmax : p ≠ dims.map (· - 1)) :
    (incrementFastAux dims p).1 = true ∧
    PointInBounds dims (incrementFastAux dims p).2 ∧
    encodeDims dims (incrementFastAux dims p).2 = encodeDims dims p + 1 := by
  induction hb with
  | nil => exact absurd rfl hmax
  | @cons x d p' ds' hx h' ih =>
    by_cases hlt : x + 1 < d
    · have hr : incrementFastAux (d :: ds') (x :: p') = (true, (x + 1) :: p') := by
        simp only [incrementFastAux]
        rw [if_pos hlt]
      rw [hr]
      refine ⟨rfl, List.forall₂_cons.mpr ⟨by omega, h'⟩, ?_⟩
      show (x + 1) + d * encodeDims ds' p' = (x + d * encodeDims ds' p') + 1
      ring
    · have hx' : x = d - 1 := by omega
      have hne' : ds' ≠ [] := by
        intro hnil
        subst hnil
        obtain rfl : p' = [] := List.length_eq_zero.mp h'.length_eq
        exact hmax (by rw [hx']; rfl)
      have hmax' : p' ≠ ds'.map (· - 1) := by
        intro hp'
        exact hmax (by rw [hx', hp']; rfl)
      obtain ⟨c, ds'', rfl⟩ := List.exists_cons_of_ne_nil hne'
      have hr : incrementFastAux ((d : Int) :: c :: ds'') (x :: p') =
          ((incrementFastAux (c :: ds'') p').1,
            0 :: (incrementFastAux (c :: ds'') p').2) := by
        simp only [incrementFastAux]
        rw [if_neg hlt]
      obtain ⟨ih1, ih2, ih3⟩ := ih hmax'
      rw [hr]
      have hdpos : 0 < d := hx.1.trans_lt hx.2
      refine ⟨ih1, List.forall₂_cons.mpr ⟨by omega, ih2⟩, ?_⟩
      show 0 + d * encodeDims (c :: ds'') (incrementFastAux (c :: ds'') p').2 = _
      rw [ih3]
      show _ = (x + d * encodeDims (c :: ds'') p') + 1
      rw [hx']
      ring

theorem incrementSafe_succ {dims : List Int} {itp : Interpreter}
    (h : NewInterpreterSafe dims = .ok itp) {p : List Int}
    (hb : PointInBounds dims p) (hmax : p ≠ dims.map (· - 1)) :
    IncrementSafe itp p = (true, none, (incrementFastAux dims p).2) ∧
    PointInBounds dims (incrementFastAux dims p).2 ∧
    encodeDims dims (incrementFastAux dims p).2 = encodeDims dims p + 1 := by
  obtain ⟨hD, -, -, -⟩ := newInterpreterSafe_ok h
  obtain ⟨h1, h2, h3⟩ := incrementFastAux_succ hb hmax
  refine ⟨?_, h2, h3⟩
  rw [IncrementSafe, (checkPoint_none_iff h p).mpr hb, IncrementFast, hD]
  rw [show incrementFastAux dims p = ((incrementFastAux dims p).1, (incrementFastAux dims p).2) from rfl, h1]

theorem incrementSafe_max {dims : List Int} {itp : Interpreter}
    (h : NewInterpreterSafe dims = .ok itp) :
    IncrementSafe itp (dims.map (· - 1)) =
      (false, none, List.replicate dims.length 0) := by
  obtain ⟨hD, -, hne, hpos⟩ := newInterpreterSafe_ok h
  rw [IncrementSafe, (checkPoint_none_iff h _).mpr (maxPt_inBounds hpos),
    IncrementFast, hD, incrementFastAux_max hne]

/-- The point sequence obtained by starting at the all-zero point and repeatedly
applying the (safe) increment, keeping the mutated point each time. -/
def iterPoints (itp : Interpreter) : Nat → List Int
  | 0 => List.replicate itp.Dims.length 0
  | k + 1 => (IncrementSafe itp (iterPoints itp k)).2.2

theorem iterPoints_eq {dims : List Int} {itp : Interpreter}
    (h : NewInterpreterSafe dims = .ok itp) :
    ∀ k : Nat, (k : Int) < Size itp → iterPoints itp k = decodeDims dims (k : Int) := by
  obtain ⟨hD, -, hne, hpos⟩ := newInterpreterSafe_ok h
  intro k
  induction k with
  | zero =>
    intro _
    show List.replicate itp.Dims.length 0 = _
    rw [hD, Nat.cast_zero, decodeDims_zero hpos]
  | succ k ih =>
    intro hk
    have hk' : (k : Int) < Size itp := by push_cast at hk ⊢; omega
    have hkS : (k : Int) < dims.prod := by rwa [size_eq_prod h] at hk'
    have hb : PointInBounds dims (decodeDims dims (k : Int)) := decodeDims_inBounds hpos _
    have henc : encodeDims dims (decodeDims dims (k : Int)) = (k : Int) :=
      encodeDims_decodeDims hpos (Int.ofNat_nonneg k) hkS
    have hmax : decodeDims dims (k : Int) ≠ dims.map (· - 1) := by
      intro hcmax
      have := (encode_eq_max_iff hpos hb).mpr hcmax
      rw [henc] at this
      rw [size_eq_prod h] at hk
      push_cast at hk
      omega
    obtain ⟨h1, h2, h3⟩ := incrementSafe_succ h hb hmax
    show (IncrementSafe itp (iterPoints itp k)).2.2 = _
    rw [ih hk', h1]
    have : decodeDims dims (encodeDims dims (incrementFastAux dims (decodeDims dims (k : Int))).2) = (incrementFastAux dims (decodeDims dims (k : Int))).2 :=
      decodeDims_encodeDims h2
    rw [← this, h3, henc]
    push_cast
    rfl

theorem firstNonPosAux_eq_some (l : List Int) :
    ∀ (i j : Nat), firstNonPosAux l i = some j ↔
      ∃ m, j = i + m ∧ m < l.length ∧ l.getD m 0 ≤ 0 ∧ ∀ k < m, 0 < l.getD k 0 := by
  induction l with
  | nil =>
    intro i j
    simp [firstNonPosAux]
  | cons d ds ih =>
    intro i j
    rw [firstNonPosAux]
    split_ifs with hle
    · simp only [Option.some.injEq]
      constructor
      · rintro rfl
        exact ⟨0, by omega, by simp, by simpa using hle, by omega⟩
      · rintro ⟨m, rfl, hm, hv, hall⟩
        cases m with
        | zero => omega
        | succ m' =>
          have := hall 0 (by omega)
          simp only [List.getD_cons_zero] at this
          omega
    · rw [ih (i + 1) j]
      constructor
      · rintro ⟨m, rfl, hm, hv, hall⟩
        refine ⟨m + 1, by omega, by simp; omega, by simpa using hv, ?_⟩
        intro k hk
        cases k with
        | zero => simp only [List.getD_cons_zero]; omega
        | succ k' => simpa using hall k' (by omega)
      · rintro ⟨m, rfl, hm, hv, hall⟩
        cases m with
        | zero =>
          simp only [List.getD_cons_zero] at hv
          omega
        | succ m' =>
          refine ⟨m', by omega, by simp at hm; omega, by simpa using hv, ?_⟩
          intro k hk
          simpa using hall (k + 1) (by omega)

/-! ### The claims -/

/-- C2: for every valid interpreter, index-to-point conversion is a bijection on
`[0, Size)`: `IndexSafe` inverts `PointSafe` on every in-range index, and
`PointSafe` inverts `IndexSafe` on every point accepted by `CheckPoint`, with no
error on either side. -/
theorem claim_C2 {dims : List Int} {itp : Interpreter}
    (h : NewInterpreterSafe dims = .ok itp) :
    (∀ i : Int, 0 ≤ i → i < Size itp →
      ∃ p, PointSafe itp i = .ok p ∧ IndexSafe itp p = .ok i) ∧
    (∀ p : List Int, CheckPoint itp p = none →
      ∃ i, IndexSafe itp p = .ok i ∧ PointSafe itp i = .ok p) := by
  obtain ⟨hD, hS, hne, hpos⟩ := newInterpreterSafe_ok h
  constructor
  · intro i h0 hlt
    refine ⟨decodeDims dims i, pointSafe_ok h h0 hlt, ?_⟩
    rw [indexSafe_ok h (decodeDims_inBounds hpos i),
      encodeDims_decodeDims hpos h0 (by rwa [size_eq_prod h] at hlt)]
  · intro p hp
    have hb : PointInBounds dims p := (checkPoint_none_iff h p).mp hp
    refine ⟨encodeDims dims p, indexSafe_ok h hb, ?_⟩
    rw [pointSafe_ok h (encodeDims_nonneg hb)
      (by rw [size_eq_prod h]; exact encodeDims_lt hb), decodeDims_encodeDims hb]

/-- Witness for C2 at the concrete shape `[2,3]` with index `3` and point `[1,1]`. -/
theorem claim_C2_witness :
    (∃ p, PointSafe ⟨[2,3],[2,6]⟩ 3 = .ok p ∧ IndexSafe ⟨[2,3],[2,6]⟩ p = .ok 3) ∧
    (∃ i, IndexSafe ⟨[2,3],[2,6]⟩ [1,1] = .ok i ∧ PointSafe ⟨[2,3],[2,6]⟩ i = .ok [1,1]) := by
  have h := @claim_C2 [2,3] ⟨[2,3],[2,6]⟩ (by decide)
  exact ⟨h.1 3 (by decide) (by decide), h.2 [1,1] (by decide)⟩

/-- C3: for every valid interpreter and point passing `CheckPoint`, `IndexSafe`
returns `p[0] + Σ_{i=1}^{N-1} p[i] * Sizes[i-1]` (mixed-radix encode, dimension
0 least significant); concretely, for shape `[2,3,4]`, `IndexSafe [0,1,2]`
returns `14` and `PointSafe 23` returns `[1,2,3]`. -/
theorem claim_C3 {dims : List Int} {itp : Interpreter}
    (h : NewInterpreterSafe dims = .ok itp) :
    (∀ p : List Int, CheckPoint itp p = none →
      IndexSafe itp p = .ok (p.getD 0 0 +
        ∑ i ∈ Finset.Ico 1 itp.Sizes.length, p.getD i 0 * itp.Sizes.getD (i - 1) 0)) ∧
    NewInterpreterSafe [2,3,4] = .ok ⟨[2,3,4],[2,6,24]⟩ ∧
    IndexSafe ⟨[2,3,4],[2,6,24]⟩ [0,1,2] = .ok 14 ∧
    PointSafe ⟨[2,3,4],[2,6,24]⟩ 23 = .ok [1,2,3] := by
  refine ⟨?_, by decide, by decide, by decide⟩
  intro p hp
  rw [IndexSafe, hp, IndexFast, indexFastAux_eq_sum,
    Finset.sum_Ico_eq_sum_range]

/-- Witness for C3 at the concrete shape `[2,3,4]` and point `[1,2,3]`. -/
theorem claim_C3_witness :
    IndexSafe ⟨[2,3,4],[2,6,24]⟩ [1,2,3] = .ok ([1,2,3].getD 0 0 +
      ∑ i ∈ Finset.Ico 1 (Interpreter.mk [2,3,4] [2,6,24]).Sizes.length,
        [1,2,3].getD i 0 * (Interpreter.mk [2,3,4] [2,6,24]).Sizes.getD (i - 1) 0) :=
  (@claim_C3 [2,3,4] ⟨[2,3,4],[2,6,24]⟩ (by decide)).1 [1,2,3] (by decide)

/-- C4: for a valid interpreter and a point passing `CheckPoint`, the safe
increment moves a non-maximal point to the point of the next index and returns
`true`, while the maximal point wraps to all-zero with return `false`; starting
from the all-zero point, `Size` successive increments visit indices
`0, 1, ..., Size-1` in order, the final increment returns `false`, and the point
is restored to all-zero. -/
theorem claim_C4 {dims : List Int} {itp : Interpreter}
    (h : NewInterpreterSafe dims = .ok itp) :
    (∀ p : List Int, CheckPoint itp p = none →
      (p ≠ itp.Dims.map (· - 1) →
        ∃ p', IncrementSafe itp p = (true, none, p') ∧
          IndexSafe itp p' = .ok (IndexFast itp p + 1)) ∧
      (p = itp.Dims.map (· - 1) →
        IncrementSafe itp p = (false, none, List.replicate itp.Dims.length 0))) ∧
    (∀ k : Nat, (k : Int) < Size itp →
      IndexSafe itp (iterPoints itp k) = .ok (k : Int)) ∧
    (∀ k : Nat, (k : Int) + 1 < Size itp →
      (IncrementSafe itp (iterPoints itp k)).1 = true) ∧
    IncrementSafe itp (iterPoints itp ((Size itp).toNat - 1)) =
      (false, none, List.replicate itp.Dims.length 0) ∧
    iterPoints itp (Size itp).toNat = List.replicate itp.Dims.length 0 := by
  obtain ⟨hD, hS, hne, hpos⟩ := newInterpreterSafe_ok h
  have hSpos : 0 < Size itp := size_pos h
  have hprod : Size itp = dims.prod := size_eq_prod h
  have hnotmax : ∀ k : Nat, (k : Int) + 1 < Size itp →
      decodeDims dims (k : Int) ≠ dims.map (· - 1) := by
    intro k hk hcmax
    have := (encode_eq_max_iff hpos (decodeDims_inBounds hpos _)).mpr hcmax
    rw [encodeDims_decodeDims hpos (Int.ofNat_nonneg k) (by omega)] at this
    omega
  have hmaxdec : decodeDims dims (Size itp - 1) = dims.map (· - 1) := by
    refine (encode_eq_max_iff hpos (decodeDims_inBounds hpos _)).mp ?_
    rw [encodeDims_decodeDims hpos (by omega) (by omega), hprod]
  have hlast : IncrementSafe itp (iterPoints itp ((Size itp).toNat - 1)) =
      (false, none, List.replicate itp.Dims.length 0) := by
    have hc : (((Size itp).toNat - 1 : Nat) : Int) = Size itp - 1 := by omega
    rw [iterPoints_eq h _ (by omega), hc, hmaxdec, hD]
    exact incrementSafe_max h
  refine ⟨?_, ?_, ?_, hlast, ?_⟩
  · intro p hp
    have hb : PointInBounds dims p := (checkPoint_none_iff h p).mp hp
    constructor
    · intro hmax
      rw [hD] at hmax
      obtain ⟨h1, h2, h3⟩ := incrementSafe_succ h hb hmax
      refine ⟨_, h1, ?_⟩
      rw [indexSafe_ok h h2, h3, indexFast_eq_encode h hb.length_eq]
    · intro hmax
      rw [hmax, hD]
      exact incrementSafe_max h
  · intro k hk
    rw [iterPoints_eq h k hk, indexSafe_ok h (decodeDims_inBounds hpos _),
      encodeDims_decodeDims hpos (Int.ofNat_nonneg k) (by omega)]
  · intro k hk
    have hk' : (k : Int) < Size itp := by omega
    rw [iterPoints_eq h k hk']
    obtain ⟨h1, -, -⟩ :=
      incrementSafe_succ h (decodeDims_inBounds hpos _) (hnotmax k hk)
    rw [h1]
  · have hc : (Size itp).toNat = ((Size itp).toNat - 1) + 1 := by omega
    rw [hc]
    show (IncrementSafe itp (iterPoints itp _)).2.2 = _
    rw [hlast]

/-- Witness for C4 at the concrete shape `[2,3]`. -/
theorem claim_C4_witness :
    (∃ p', IncrementSafe ⟨[2,3],[2,6]⟩ [1,1] = (true, none, p') ∧
      IndexSafe ⟨[2,3],[2,6]⟩ p' = .ok (IndexFast ⟨[2,3],[2,6]⟩ [1,1] + 1)) ∧
    IncrementSafe ⟨[2,3],[2,6]⟩ [1,2] = (false, none, List.replicate 2 0) ∧
    IndexSafe ⟨[2,3],[2,6]⟩ (iterPoints ⟨[2,3],[2,6]⟩ 4) = .ok 4 ∧
    iterPoints ⟨[2,3],[2,6]⟩ (Size ⟨[2,3],[2,6]⟩).toNat = List.replicate 2 0 := by
  have h := @claim_C4 [2,3] ⟨[2,3],[2,6]⟩ (by decide)
  refine ⟨(h.1 [1,1] (by decide)).1 (by decide), ?_, h.2.1 4 (by decide), h.2.2.2.2⟩
  exact (h.1 [1,2] (by decide)).2 (by decide)

/-- C5 counterexample: on the one-dimensional shape `[1]` (`Size = 1`) the call
`IncreaseBySafe [0] 1` has `|change| ≥ Size()` yet, because `change = 1` is
delegated to `IncrementSafe` before the magnitude check, it returns
`(false, nil)` — not the `ChangeMagnitudeTooLarge` error the claim requires. -/
theorem claim_C5_counterexample :
    NewInterpreterSafe [1] = .ok ⟨[1],[1]⟩ ∧
    CheckPoint ⟨[1],[1]⟩ [0] = none ∧
    Size ⟨[1],[1]⟩ ≤ 1 ∧
    IncreaseBySafe ⟨[1],[1]⟩ [0] 1 = (false, none, [0]) ∧
    (IncreaseBySafe ⟨[1],[1]⟩ [0] 1).2.1 ≠ some Err.changeTooBig := by
  decide

/-- C5 (amended): for every valid interpreter, point passing `CheckPoint`, and
change with `|change| ≥ Size()` — excluding `change = ±1`, which is delegated to
increment/decrement before the magnitude check — `IncreaseBySafe` returns the
`ChangeMagnitudeTooLarge` error and leaves the point unchanged. -/
theorem claim_C5_amended {dims : List Int} {itp : Interpreter}
    (h : NewInterpreterSafe dims = .ok itp) {p : List Int}
    (hp : CheckPoint itp p = none) {change : Int}
    (hc : Size itp ≤ |change|) (hc1 : change ≠ 1) (hcm1 : change ≠ -1) :
    IncreaseBySafe itp p change = (false, some .changeTooBig, p) := by
  have hSpos : 0 < Size itp := size_pos h
  have hc0 : change ≠ 0 := by
    intro hz
    rw [hz] at hc
    simp at hc
    omega
  rw [IncreaseBySafe, if_neg hc0, if_neg hc1, if_neg hcm1, IndexSafe, hp]
  show (if change ≥ Size itp then
      ((false, some Err.changeTooBig, p) : Bool × Option Err × List Int)
    else if change ≤ -(Size itp) then (false, some Err.changeTooBig, p)
    else
      let newIndex := IndexFast itp p + change
      if newIndex < 0 ∨ newIndex ≥ Size itp then (false, none, p)
      else (true, none, copyList p (Point itp newIndex))) =
    (false, some Err.changeTooBig, p)
  rcases abs_cases change with ⟨habs, -⟩ | ⟨habs, -⟩ <;> rw [habs] at hc
  · rw [if_pos (by omega)]
  · rw [if_neg (by omega), if_pos (by omega)]

/-- Witness for C5 (amended) at shape `[2]`, point `[0]`, change `2`. -/
theorem claim_C5_amended_witness :
    IncreaseBySafe ⟨[2],[2]⟩ [0] 2 = (false, some .changeTooBig, [0]) :=
  @claim_C5_amended [2] ⟨[2],[2]⟩ (by decide) [0] (by decide) 2 (by decide)
    (by decide) (by decide)

/-- C7: construction returns `EmptyShape` exactly on the empty dims vector;
otherwise it returns `InvalidDimension` naming axis `j` exactly when `j` is the
first axis with a non-positive entry; an all-positive vector succeeds and
`Sizes` holds the cumulative products of `Dims`; concretely `[1,0,2]` fails on
axis `1` and `[]` fails with `EmptyShape`. -/
theorem claim_C7 :
    (∀ dims : List Int, NewInterpreterSafe dims = .error .zeroDims ↔ dims = []) ∧
    (∀ (dims : List Int) (j : Nat), dims ≠ [] →
      (NewInterpreterSafe dims = .error (.dimsValue dims j) ↔
        (j < dims.length ∧ dims.getD j 0 ≤ 0 ∧ ∀ k < j, 0 < dims.getD k 0))) ∧
    (∀ dims : List Int, dims ≠ [] → (∀ d ∈ dims, 0 < d) →
      ∃ itp, NewInterpreterSafe dims = .ok itp ∧ itp.Dims = dims ∧
        itp.Sizes.length = dims.length ∧
        ∀ k < dims.length, itp.Sizes.getD k 0 = (dims.take (k + 1)).prod) ∧
    NewInterpreterSafe [1,0,2] = .error (.dimsValue [1,0,2] 1) ∧
    NewInterpreterSafe [] = .error .zeroDims := by
  refine ⟨?_, ?_, ?_, by decide, by decide⟩
  · intro dims
    rw [NewInterpreterSafe]
    split_ifs with hlen
    · simp [List.length_eq_zero.mp hlen]
    · have hne : dims ≠ [] := fun hz => hlen (by rw [hz]; rfl)
      cases hfo : firstNonPosAux dims 0 <;> simp [hne]
  · intro dims j hne
    rw [NewInterpreterSafe,
      if_neg (fun hz => hne (List.length_eq_zero.mp hz))]
    cases hfo : firstNonPosAux dims 0 with
    | none =>
      simp only [reduceCtorEq, false_iff]
      rw [firstNonPosAux_eq_none] at hfo
      rintro ⟨hj, hv, -⟩
      have hmem : dims.getD j 0 ∈ dims := by
        rw [List.getD_eq_getElem dims 0 (by omega)]
        exact List.getElem_mem _
      have := hfo (dims.getD j 0) hmem
      omega
    | some m =>
      rw [firstNonPosAux_eq_some] at hfo
      obtain ⟨m', rfl, hm, hv, hall⟩ := hfo
      simp only [Except.error.injEq, Err.dimsValue.injEq, true_and, Nat.zero_add]
      constructor
      · rintro rfl
        exact ⟨hm, hv, hall⟩
      · rintro ⟨hj, hjv, hjall⟩
        by_contra hne'
        rcases Nat.lt_or_ge m' j with hlt | hge
        · have := hjall m' hlt
          omega
        · have := hall j (by omega)
          omega
  · intro dims hne hpos
    refine ⟨⟨dims, mkSizes dims⟩, ?_, rfl, mkSizes_length dims, ?_⟩
    · rw [NewInterpreterSafe,
        if_neg (fun hz => hne (List.length_eq_zero.mp hz)),
        (firstNonPosAux_eq_none dims 0).mpr hpos]
    · intro k hk
      exact mkSizes_getD dims k hk

/-- Witness for C7: the concrete scenarios the claim names, extracted from the
theorem. -/
theorem claim_C7_witness :
    NewInterpreterSafe [1, 0, 2] = .error (.dimsValue [1, 0, 2] 1) ∧
    NewInterpreterSafe [] = .error .zeroDims :=
  ⟨claim_C7.2.2.2.1, claim_C7.2.2.2.2⟩

/-- C9: a zero change is a no-op on any interpreter and any point whatsoever —
no validation is performed and the point is returned unmodified with
`(true, nil)`. -/
theorem claim_C9 (itp : Interpreter) (p : List Int) :
    IncreaseBySafe itp p 0 = (true, none, p) := by
  rw [IncreaseBySafe, if_pos rfl]

/-- C10: when `CheckPoint` rejects the point, `IncrementSafe` and
`DecrementSafe` both return `false` together with exactly that error, leaving
the point untouched. -/
theorem claim_C10 (itp : Interpreter) (p : List Int) (e : Err)
    (h : CheckPoint itp p = some e) :
    IncrementSafe itp p = (false, some e, p) ∧
    DecrementSafe itp p = (false, some e, p) := by
  rw [IncrementSafe, DecrementSafe, h]
  exact ⟨rfl, rfl⟩

/-- Witness for C10: an out-of-bounds point on shape `[2,3,4]`. -/
theorem claim_C10_witness :
    IncrementSafe ⟨[2,3,4],[2,6,24]⟩ [5,0,0] =
      (false, some (.pointOutOfBounds [5,0,0] [2,3,4] 0), [5,0,0]) ∧
    DecrementSafe ⟨[2,3,4],[2,6,24]⟩ [5,0,0] =
      (false, some (.pointOutOfBounds [5,0,0] [2,3,4] 0), [5,0,0]) :=
  claim_C10 ⟨[2,3,4],[2,6,24]⟩ [5,0,0] (.pointOutOfBounds [5,0,0] [2,3,4] 0)
    (by decide)

/-! ### The traversal engine (`mapapply.go`)

`generalMapApply` spawns `NumThreads` goroutines sharing a cursor `index`, a
running `point` and a sticky error `err`, all protected by one mutex.  We model
an execution as an interleaving of atomic steps: one step per execution of the
locked section at the top of a worker's outer loop (`claimStep`, together with
the purely local clamp of `localEnd` that follows it), and one step per
iteration of a worker's inner batch loop (`workStep`; the visitor call runs
outside the lock but touches only worker-local data and the append-only ghost
trace `visits`, so per-iteration atomicity loses no interleavings).  A schedule
chooses which worker moves at each step; `generalMapApply` returns `err` of a
state in which every worker has reached `done` (that is when `wg.Wait()`
unblocks). -/

/-- A (non-nil) visitor function handed to `MapApplySafe`
(`fn func([]int, int) error`). -/
def Visitor : Type := List Int → Int → Option Err

/-- `ThreadingOptions` (`mapapply.go`). -/
structure ThreadingOptions where
  OpsPerThread : Int
  NumThreads : Int
deriving DecidableEq

/-- Option filling of `generalMapApply` (`mapapply.go` lines 107-118): `nil`
becomes a single worker with `OpsPerThread = Size`; supplied fields below 1 are
coerced to 1. -/
def normalizeOptions (itp : Interpreter) : Option ThreadingOptions → ThreadingOptions
  | none => ⟨Size itp, 1⟩
  | some o => ⟨if o.OpsPerThread < 1 then 1 else o.OpsPerThread,
               if o.NumThreads < 1 then 1 else o.NumThreads⟩

/-- Control position of one worker goroutine: `claim` = about to run the locked
section at the top of the outer loop, `work` = inside the inner batch loop,
`done` = returned. -/
inductive WPhase where
  | claim
  | work
  | done
deriving DecidableEq

/-- The local variables of one worker goroutine. -/
structure WState where
  phase : WPhase
  localErr : Option Err
  localIndex : Int
  localEnd : Int
  localPoint : List Int
deriving DecidableEq

/-- Shared state of the engine, the worker pool, and the ghost trace `visits`
recording every `fn(localPoint, localIndex)` invocation in global order. -/
structure MState where
  index : Int
  point : List Int
  err : Option Err
  workers : List WState
  visits : List (List Int × Int)
deriving DecidableEq

/-- The shared-point refresh inside the locked section (`mapapply.go` lines
179-198): when the advanced cursor `index'` is still in range, either decode it
fresh (`OpsPerThread > 1`, where a decode failure is published and the shared
point is left `nil`) or advance the shared point by one increment
(`OpsPerThread == 1`, where an unexpected wrap becomes `ErrPointOutOfSync`).
Returns the error to publish, if any, and the new shared point. -/
def claimUpdate (itp : Interpreter) (ops index' : Int) (point : List Int) :
    Option Err × List Int :=
  if index' < Size itp then
    if ops > 1 then
      match PointSafe itp index' with
      | .error e => (some e, [])
      | .ok p' => (none, p')
    else
      match IncrementSafe itp point with
      | (_, some e, p') => (some e, p')
      | (cont, none, p') =>
        if cont then (none, p') else (some .pointOutOfSync, p')
  else (none, point)

/-- One execution of the locked section at the top of a worker's outer loop
(`mapapply.go` lines 152-207): quit if the sticky error is set; publish a local
error and quit; quit if the space is exhausted; otherwise claim the batch
`[index, index+ops)`, duplicate the running point into the worker, advance the
cursor, refresh the shared point, and (after unlocking) clamp the batch end to
`Size`.  In the claiming branch the new shared error is exactly the error
reported by the point refresh (`c.err` is `none` in that branch, so writing the
refresh result is the same as writing it only on failure); on a refresh failure
the worker returns (`done`), otherwise it enters its batch loop (`work`). -/
def claimStep (itp : Interpreter) (ops : Int) (c : MState) (w : WState) :
    MState × WState :=
  if c.err.isSome then (c, { w with phase := .done })
  else if w.localErr.isSome then
    ({ c with err := w.localErr }, { w with phase := .done })
  else if c.index ≥ Size itp then (c, { w with phase := .done })
  else
    ({ c with index := c.index + ops,
              point := (claimUpdate itp ops (c.index + ops) c.point).2,
              err := (claimUpdate itp ops (c.index + ops) c.point).1 },
     if (claimUpdate itp ops (c.index + ops) c.point).1.isSome then
       { w with phase := .done, localIndex := c.index,
                localEnd := c.index + ops, localPoint := c.point }
     else
       { w with phase := .work, localIndex := c.index,
                localEnd := if c.index + ops > Size itp then Size itp
                            else c.index + ops,
                localPoint := c.point })

/-- One iteration of a worker's inner batch loop (`mapapply.go` lines 210-233):
invoke the visitor on `(localPoint, localIndex)`, record a failure in
`localErr` (overwriting any earlier one), advance `localIndex`, and either
finish the batch or advance the local point by one increment — an increment
failure or wrap overwrites `localErr` and breaks out of the batch.  `workStepW` is the worker-local part of
the iteration; `workStep` adds the ghost-trace record of the visitor call. -/
def workStepW (itp : Interpreter) (fn : Visitor) (w : WState) : WState :=
  let lerr' : Option Err := match fn w.localPoint w.localIndex with
    | some e => some e
    | none => w.localErr
  if w.localIndex + 1 = w.localEnd then
    { w with phase := .claim, localIndex := w.localIndex + 1, localErr := lerr' }
  else
    match IncrementSafe itp w.localPoint with
    | (_, some e, lp') =>
      { w with phase := .claim, localIndex := w.localIndex + 1,
               localPoint := lp', localErr := some e }
    | (cont, none, lp') =>
      if cont then
        { w with localIndex := w.localIndex + 1, localPoint := lp',
                 localErr := lerr' }
      else
        { w with phase := .claim, localIndex := w.localIndex + 1,
                 localPoint := lp', localErr := some .pointOutOfSync }

def workStep (itp : Interpreter) (fn : Visitor) (c : MState) (w : WState) :
    MState × WState :=
  if w.localIndex < w.localEnd then
    ({ c with visits := c.visits ++ [(w.localPoint, w.localIndex)] },
     workStepW itp fn w)
  else (c, { w with phase := .claim })

/-- Dispatch one step of a worker according to its phase, writing its updated
local state back into the pool. -/
def stepWorker (itp : Interpreter) (fn : Visitor) (ops : Int) (c : MState)
    (wi : Nat) (w : WState) : MState :=
  match w.phase with
  | .done => c
  | .claim =>
    let r := claimStep itp ops c w
    { r.1 with workers := r.1.workers.set wi r.2 }
  | .work =>
    let r := workStep itp fn c w
    { r.1 with workers := r.1.workers.set wi r.2 }

/-- One atomic step of worker `wi`; out-of-range ids and finished workers leave
the state unchanged. -/
def stepW (itp : Interpreter) (fn : Visitor) (ops : Int) (c : MState) (wi : Nat) :
    MState :=
  match c.workers.get? wi with
  | none => c
  | some w => stepWorker itp fn ops c wi w

/-- The state of `generalMapApply` right after spawning `t` workers: cursor 0,
shared point `make([]int, len(in.Dims))` (all zeros), no error, every worker at
the top of its outer loop with zero-valued locals. -/
def initState (itp : Interpreter) (t : Nat) : MState :=
  { index := 0, point := List.replicate itp.Dims.length 0, err := none,
    workers := List.replicate t ⟨.claim, none, 0, 0, []⟩, visits := [] }

/-- Interleaving semantics: some worker takes a step. -/
def MStep (itp : Interpreter) (fn : Visitor) (ops : Int) (c c' : MState) : Prop :=
  ∃ wi, c' = stepW itp fn ops c wi

/-- Reachability under arbitrary interleaving of the workers. -/
def MReach (itp : Interpreter) (fn : Visitor) (ops : Int) : MState → MState → Prop :=
  Relation.ReflTransGen (MStep itp fn ops)

/-- Every worker goroutine has returned — the point at which `wg.Wait()`
unblocks and `generalMapApply` returns the shared `err`. -/
def AllDone (c : MState) : Prop := ∀ w ∈ c.workers, w.phase = WPhase.done

instance (c : MState) : Decidable (AllDone c) :=
  List.decidableBAll (fun w : WState => w.phase = WPhase.done) c.workers

/-- Run a specific schedule (list of worker ids) from a state. -/
def runSched (itp : Interpreter) (fn : Visitor) (ops : Int) (l : List Nat)
    (c : MState) : MState :=
  l.foldl (stepW itp fn ops) c

/-- A complete run of `MapApplySafe`'s engine with (non-nil) visitor `fn` and
options `opts`: some schedule drove the workers from the initial state to a
state where all have returned; the call then returns `c.err`. -/
def generalMapApplyRun (itp : Interpreter) (fn : Visitor)
    (opts : Option ThreadingOptions) (c : MState) : Prop :=
  MReach itp fn (normalizeOptions itp opts).OpsPerThread
    (initState itp (normalizeOptions itp opts).NumThreads.toNat) c ∧ AllDone c

/-- Number of times index `i` appears in the visit trace. -/
def vCount (vs : List (List Int × Int)) (i : Int) : Nat :=
  (vs.filter (fun v => v.2 == i)).length

theorem runSched_reach (itp : Interpreter) (fn : Visitor) (ops : Int) :
    ∀ (l : List Nat) (c : MState), MReach itp fn ops c (runSched itp fn ops l c) := by
  intro l
  induction l with
  | nil => exact fun c => Relation.ReflTransGen.refl
  | cons wi l' ih =>
    intro c
    exact Relation.ReflTransGen.head ⟨wi, rfl⟩ (ih (stepW itp fn ops c wi))

/-- The failing visitor used in the C1 counterexample: it reports failure at
index 0 and succeeds elsewhere. -/
def fnC1 : Visitor := fun _ i => if i = 0 then some (.userError 0) else none

/-- C1 counterexample: on the valid shape `[2]`, with threading configuration
`{OpsPerThread 1, NumThreads 1}` and the non-nil visitor `fnC1` (which fails at
index 0), a complete traversal run finishes with index `1 ∈ [0, Size)` never
visited: a visitor failure suppresses all further batch claims, so the
universally quantified claim over "every non-nil visitor" fails. -/
theorem claim_C1_counterexample :
    NewInterpreterSafe [2] = .ok ⟨[2],[2]⟩ ∧
    generalMapApplyRun ⟨[2],[2]⟩ fnC1 (some ⟨1, 1⟩)
      (runSched ⟨[2],[2]⟩ fnC1 1 [0, 0, 0] (initState ⟨[2],[2]⟩ 1)) ∧
    (0 : Int) ≤ 1 ∧ (1 : Int) < Size ⟨[2],[2]⟩ ∧
    vCount (runSched ⟨[2],[2]⟩ fnC1 1 [0, 0, 0] (initState ⟨[2],[2]⟩ 1)).visits 1 = 0 := by
  refine ⟨by decide, ⟨?_, by decide⟩, by decide, by decide, by decide⟩
  exact runSched_reach ⟨[2],[2]⟩ fnC1 1 [0, 0, 0] (initState ⟨[2],[2]⟩ 1)

/-- The visitor used in the C6 counterexample: it fails at every index, with a
distinct error per index. -/
def fnC6 : Visitor := fun _ i => if i = 0 then some (.userError 0) else some (.userError 1)

/-- C6 counterexample: shape `[2]`, a single worker with `OpsPerThread = 2`, so
the whole space `[0, 2)` is one claimed batch, and a visitor failing at both
indices — first with `userError 0` at index 0, then with `userError 1` at index
1.  Both indices of the batch are visited and no further batch starts, but the
engine returns the *last* failure `userError 1` (each new visitor failure
overwrites `localErr`), not the first failure `userError 0` the claim
requires. -/
theorem claim_C6_counterexample :
    NewInterpreterSafe [2] = .ok ⟨[2],[2]⟩ ∧
    generalMapApplyRun ⟨[2],[2]⟩ fnC6 (some ⟨2, 1⟩)
      (runSched ⟨[2],[2]⟩ fnC6 2 [0, 0, 0, 0] (initState ⟨[2],[2]⟩ 1)) ∧
    fnC6 (Point ⟨[2],[2]⟩ 0) 0 = some (.userError 0) ∧
    fnC6 (Point ⟨[2],[2]⟩ 1) 1 = some (.userError 1) ∧
    (runSched ⟨[2],[2]⟩ fnC6 2 [0, 0, 0, 0] (initState ⟨[2],[2]⟩ 1)).visits =
      [([0], 0), ([1], 1)] ∧
    (runSched ⟨[2],[2]⟩ fnC6 2 [0, 0, 0, 0] (initState ⟨[2],[2]⟩ 1)).err =
      some (.userError 1) ∧
    some (Err.userError 1) ≠ some (Err.userError 0) := by
  refine ⟨by decide, ⟨?_, by decide⟩, by decide, by decide, by decide, by decide, by decide⟩
  exact runSched_reach ⟨[2],[2]⟩ fnC6 2 [0, 0, 0, 0] (initState ⟨[2],[2]⟩ 1)

/-! ### Infrastructure for reasoning about engine runs -/

theorem claimStep_workers (itp : Interpreter) (ops : Int) (c : MState) (w : WState) :
    (claimStep itp ops c w).1.workers = c.workers := by
  unfold claimStep
  split_ifs <;> rfl

theorem workStep_workers (itp : Interpreter) (fn : Visitor) (c : MState) (w : WState) :
    (workStep itp fn c w).1.workers = c.workers := by
  unfold workStep
  split_ifs <;> rfl

theorem stepW_workers_length (itp : Interpreter) (fn : Visitor) (ops : Int)
    (c : MState) (wi : Nat) :
    (stepW itp fn ops c wi).workers.length = c.workers.length := by
  unfold stepW
  cases hg : c.workers.get? wi with
  | none => rfl
  | some w =>
    obtain ⟨ph, a, b, d, e⟩ := w
    cases ph <;>
      simp [stepWorker, claimStep_workers, workStep_workers, List.length_set]

theorem mreach_workers_length {itp : Interpreter} {fn : Visitor} {ops : Int}
    {c c' : MState} (h : MReach itp fn ops c c') :
    c'.workers.length = c.workers.length := by
  induction h with
  | refl => rfl
  | tail _ hstep ih =>
    obtain ⟨wi, rfl⟩ := hstep
    rw [stepW_workers_length, ih]

/-- Whether index `i` is pending in worker `w`'s currently claimed batch. -/
def pendB (w : WState) (i : Int) : Bool :=
  decide (w.phase = WPhase.work) && decide (w.localIndex ≤ i) && decide (i < w.localEnd)

/-- Number of workers whose current batch still holds index `i`. -/
def pendCount (ws : List WState) (i : Int) : Nat := ws.countP (fun w => pendB w i)

theorem vCount_append (vs : List (List Int × Int)) (v : List Int × Int) (i : Int) :
    vCount (vs ++ [v]) i = vCount vs i + (if v.2 = i then 1 else 0) := by
  rw [vCount, vCount, List.filter_append]
  simp only [List.length_append]
  congr 1
  rcases Decidable.em (v.2 = i) with hv | hv
  · have hb : (v.2 == i) = true := beq_iff_eq.mpr hv
    simp [List.filter, hb, hv]
  · have hb : (v.2 == i) = false := beq_eq_false_iff_ne.mpr hv
    simp [List.filter, hb, hv]

theorem pendB_of_claim {w : WState} (h : w.phase = WPhase.claim) (i : Int) :
    pendB w i = false := by
  simp [pendB, h]

theorem pendB_of_done {w : WState} (h : w.phase = WPhase.done) (i : Int) :
    pendB w i = false := by
  simp [pendB, h]

theorem pendB_of_work {w : WState} (h : w.phase = WPhase.work) (i : Int) :
    pendB w i = (decide (w.localIndex ≤ i) && decide (i < w.localEnd)) := by
  simp [pendB, h]

theorem pendCount_set {ws : List WState} {wi : Nat} {w : WState} (w' : WState)
    (hg : ws.get? wi = some w) (i : Int) :
    pendCount (ws.set wi w') i =
      pendCount ws i - (if pendB w i then 1 else 0) +
        (if pendB w' i then 1 else 0) := by
  obtain ⟨hlen, hget⟩ := List.get?_eq_some.mp hg
  rw [pendCount, pendCount, List.countP_set _ _ _ _ hlen]
  have hw : ws[wi] = w := hget
  rw [hw]

/-- The shared-point refresh never fails in a healthy claiming step: with a
valid interpreter, a positive batch size, an in-range cursor, and the shared
point tracking the cursor, `claimUpdate` reports no error and leaves the shared
point tracking the advanced cursor whenever that is still in range. -/
theorem claimUpdate_ok {dims : List Int} {itp : Interpreter}
    (h : NewInterpreterSafe dims = .ok itp) {ops : Int} (hops : 1 ≤ ops)
    {idx : Int} (h0 : 0 ≤ idx) (hlt : idx < Size itp) {p : List Int}
    (hp : p = decodeDims dims idx) :
    claimUpdate itp ops (idx + ops) p =
      (none, if idx + ops < Size itp then decodeDims dims (idx + ops) else p) := by
  obtain ⟨hD, hS, hne, hpos⟩ := newInterpreterSafe_ok h
  rw [claimUpdate]
  by_cases hr : idx + ops < Size itp
  · rw [if_pos hr, if_pos hr]
    by_cases h1 : ops > 1
    · rw [if_pos h1, pointSafe_ok h (by omega) hr]
    · have hops1 : ops = 1 := by omega
      rw [if_neg h1, hp]
      have hb : PointInBounds dims (decodeDims dims idx) := decodeDims_inBounds hpos idx
      have henc : encodeDims dims (decodeDims dims idx) = idx :=
        encodeDims_decodeDims hpos h0 (by rwa [← size_eq_prod h])
      have hmax : decodeDims dims idx ≠ dims.map (· - 1) := by
        intro hcmax
        have := (encode_eq_max_iff hpos hb).mpr hcmax
        rw [henc, ← size_eq_prod h] at this
        omega
      obtain ⟨h1', h2', h3'⟩ := incrementSafe_succ h hb hmax
      rw [h1']
      have hq : (incrementFastAux dims (decodeDims dims idx)).2 =
          decodeDims dims (idx + ops) := by
        rw [← decodeDims_encodeDims h2', h3', henc, hops1]
      rw [hq]
      rfl
  · rw [if_neg hr, if_neg hr]

/-- Incrementing the decoded point of an index whose successor is still in
range succeeds and yields the decoded successor. -/
theorem incrementSafe_decode {dims : List Int} {itp : Interpreter}
    (h : NewInterpreterSafe dims = .ok itp) {idx : Int} (h0 : 0 ≤ idx)
    (hlt : idx + 1 < Size itp) :
    IncrementSafe itp (decodeDims dims idx) =
      (true, none, decodeDims dims (idx + 1)) := by
  obtain ⟨-, -, -, hpos⟩ := newInterpreterSafe_ok h
  have hb : PointInBounds dims (decodeDims dims idx) := decodeDims_inBounds hpos idx
  have henc : encodeDims dims (decodeDims dims idx) = idx :=
    encodeDims_decodeDims hpos h0 (by rw [← size_eq_prod h]; omega)
  have hmax : decodeDims dims idx ≠ dims.map (· - 1) := by
    intro hcmax
    have := (encode_eq_max_iff hpos hb).mpr hcmax
    rw [henc, ← size_eq_prod h] at this
    omega
  obtain ⟨h1, h2, h3⟩ := incrementSafe_succ h hb hmax
  rw [h1, ← decodeDims_encodeDims h2, h3, henc]

/-- Inductive invariant of the traversal engine for a valid interpreter, a
never-failing visitor and a positive `OpsPerThread`: the sticky error stays
empty, the shared running point tracks the cursor, every worker's claimed batch
is an in-range interval below the cursor whose duplicated point tracks the
worker's progress, every recorded visit is a correct `(point, index)` pair, and
every in-range index is accounted for exactly once between the visit trace, the
pending parts of claimed batches, and the unclaimed tail `[index, Size)`. -/
structure EngineInv (itp : Interpreter) (dims : List Int) (c : MState) : Prop where
  err_none : c.err = none
  index_nonneg : 0 ≤ c.index
  point_dec : c.index < Size itp → c.point = decodeDims dims c.index
  workers_err : ∀ w ∈ c.workers, w.localErr = none
  workers_work : ∀ w ∈ c.workers, w.phase = WPhase.work →
    0 ≤ w.localIndex ∧ w.localIndex ≤ w.localEnd ∧ w.localEnd ≤ Size itp ∧
    w.localEnd ≤ c.index ∧
    (w.localIndex < w.localEnd → w.localPoint = decodeDims dims w.localIndex)
  workers_done : ∀ w ∈ c.workers, w.phase = WPhase.done → Size itp ≤ c.index
  visits_ok : ∀ v ∈ c.visits, 0 ≤ v.2 ∧ v.2 < Size itp ∧ v.1 = decodeDims dims v.2
  count_ok : ∀ i : Int, 0 ≤ i → i < Size itp →
    vCount c.visits i + pendCount c.workers i +
      (if c.index ≤ i then 1 else 0) = 1

theorem pendCount_pos {ws : List WState} {wi : Nat} {w : WState}
    (hg : ws.get? wi = some w) {i : Int} (hw : pendB w i = true) :
    1 ≤ pendCount ws i := by
  have hmem : w ∈ ws := List.get?_mem hg
  rw [pendCount]
  exact List.countP_pos_iff.mpr ⟨w, hmem, hw⟩

theorem if_bool_true : (if (true = true) then (1 : Nat) else 0) = 1 := rfl

theorem if_bool_false : (if (false = true) then (1 : Nat) else 0) = 0 := rfl

theorem stepW_eq {c : MState} {wi : Nat} {w : WState}
    (hg : c.workers.get? wi = some w) (itp : Interpreter) (fn : Visitor)
    (ops : Int) : stepW itp fn ops c wi = stepWorker itp fn ops c wi w := by
  unfold stepW
  rw [hg]

/-- Computation rule: a worker that observes an exhausted cursor retires. -/
theorem stepWorker_retire {itp : Interpreter} (fn : Visitor) (ops : Int)
    {c : MState} {wi : Nat} {w : WState} (hph : w.phase = WPhase.claim)
    (herr : c.err = none) (hlerr : w.localErr = none)
    (hS : Size itp ≤ c.index) :
    stepWorker itp fn ops c wi w =
      { c with workers := c.workers.set wi { w with phase := .done } } := by
  have herrS : c.err.isSome = false := by rw [herr]; rfl
  have hlerrS : w.localErr.isSome = false := by rw [hlerr]; rfl
  unfold stepWorker
  rw [hph]
  unfold claimStep
  rw [herrS, hlerrS]
  simp only [Bool.false_eq_true, if_false]
  rw [if_pos (show c.index ≥ Size itp from hS)]

/-- Computation rule: a worker claims the batch `[index, index+ops)` when the
point refresh succeeds. -/
theorem stepWorker_claim {itp : Interpreter} (fn : Visitor) {ops : Int}
    {c : MState} {wi : Nat} {w : WState} {p' : List Int}
    (hph : w.phase = WPhase.claim) (herr : c.err = none)
    (hlerr : w.localErr = none) (hS : c.index < Size itp)
    (hcu : claimUpdate itp ops (c.index + ops) c.point = (none, p')) :
    stepWorker itp fn ops c wi w =
      { c with index := c.index + ops, point := p', err := none,
               workers := c.workers.set wi
                 { w with phase := .work, localIndex := c.index,
                          localEnd := if c.index + ops > Size itp then Size itp
                                      else c.index + ops,
                          localPoint := c.point } } := by
  have herrS : c.err.isSome = false := by rw [herr]; rfl
  have hlerrS : w.localErr.isSome = false := by rw [hlerr]; rfl
  unfold stepWorker
  rw [hph]
  unfold claimStep
  rw [herrS, hlerrS]
  simp only [Bool.false_eq_true, if_false]
  rw [if_neg (by omega), hcu]
  rfl

/-- Computation rule: a worker visits the last index of its batch and returns
to the outer loop, its local error holding the visitor's verdict (a failure
overwrites the previous value). -/
theorem stepWorker_visit_last {itp : Interpreter} {fn : Visitor} (ops : Int)
    {c : MState} {wi : Nat} {w : WState} {r : Option Err}
    (hph : w.phase = WPhase.work) (hlt : w.localIndex < w.localEnd)
    (heq : w.localIndex + 1 = w.localEnd)
    (hfn : fn w.localPoint w.localIndex = r) :
    stepWorker itp fn ops c wi w =
      { c with visits := c.visits ++ [(w.localPoint, w.localIndex)],
               workers := c.workers.set wi
                 { w with phase := .claim, localIndex := w.localIndex + 1,
                          localErr := r.or w.localErr } } := by
  unfold stepWorker workStep workStepW
  rw [hph]
  rw [if_pos hlt, if_pos heq]
  simp only [hfn]
  cases r <;> rfl

/-- Computation rule: a worker visits a non-final index of its batch and
advances its local point with a successful increment. -/
theorem stepWorker_visit_mid {itp : Interpreter} {fn : Visitor} (ops : Int)
    {c : MState} {wi : Nat} {w : WState} {r : Option Err} {q : List Int}
    (hph : w.phase = WPhase.work) (hlt : w.localIndex < w.localEnd)
    (hne : w.localIndex + 1 ≠ w.localEnd)
    (hfn : fn w.localPoint w.localIndex = r)
    (hinc : IncrementSafe itp w.localPoint = (true, none, q)) :
    stepWorker itp fn ops c wi w =
      { c with visits := c.visits ++ [(w.localPoint, w.localIndex)],
               workers := c.workers.set wi
                 { w with localIndex := w.localIndex + 1, localPoint := q,
                          localErr := r.or w.localErr } } := by
  unfold stepWorker workStep workStepW
  rw [hph]
  rw [if_pos hlt, if_neg hne]
  simp only [hfn, hinc]
  cases r <;> rfl

/-- Computation rule: a worker whose batch guard fails immediately returns to
the outer loop (the invariant makes this the `localIndex = localEnd` case). -/
theorem stepWorker_idle {itp : Interpreter} {fn : Visitor} (ops : Int)
    {c : MState} {wi : Nat} {w : WState}
    (hph : w.phase = WPhase.work) (hge : ¬ w.localIndex < w.localEnd) :
    stepWorker itp fn ops c wi w =
      { c with workers := c.workers.set wi { w with phase := .claim } } := by
  unfold stepWorker
  rw [hph]
  unfold workStep
  rw [if_neg hge]

theorem engineInv_step {dims : List Int} {itp : Interpreter}
    (h : NewInterpreterSafe dims = .ok itp) (fn : Visitor)
    (hfn : ∀ p i, fn p i = none) {ops : Int} (hops : 1 ≤ ops)
    {c : MState} (hc : EngineInv itp dims c) (wi : Nat) :
    EngineInv itp dims (stepW itp fn ops c wi) := by
  cases hg : c.workers.get? wi with
  | none =>
    unfold stepW
    rw [hg]
    exact hc
  | some w =>
    rw [stepW_eq hg]
    have hmem : w ∈ c.workers := List.get?_mem hg
    have hlerr : w.localErr = none := hc.workers_err w hmem
    cases hph : w.phase with
    | done =>
      have hid : stepWorker itp fn ops c wi w = c := by
        unfold stepWorker
        rw [hph]
      rw [hid]
      exact hc
    | claim =>
      rcases le_or_lt (Size itp) c.index with hS | hS
      · -- the space is exhausted: the worker retires
        rw [stepWorker_retire fn ops hph hc.err_none hlerr hS]
        refine ⟨hc.err_none, hc.index_nonneg, hc.point_dec, ?_, ?_, ?_,
          hc.visits_ok, ?_⟩
        · intro w'' hmem''
          rcases List.mem_or_eq_of_mem_set hmem'' with h'' | h''
          · exact hc.workers_err w'' h''
          · rw [h'']
            exact hlerr
        · intro w'' hmem'' hwork
          rcases List.mem_or_eq_of_mem_set hmem'' with h'' | h''
          · exact hc.workers_work w'' h'' hwork
          · rw [h''] at hwork
            exact absurd hwork (by simp)
        · intro w'' _ _
          exact hS
        · intro i h0 hlt
          have hcnt := hc.count_ok i h0 hlt
          show vCount c.visits i +
            pendCount (c.workers.set wi { w with phase := .done }) i +
            (if c.index ≤ i then 1 else 0) = 1
          rw [pendCount_set _ hg i, pendB_of_claim hph,
            pendB_of_done (w := { w with phase := .done }) rfl]
          simpa using hcnt
      · -- a real claim of the batch [index, index+ops)
        have hcu := claimUpdate_ok h hops hc.index_nonneg hS (hc.point_dec hS)
        rw [stepWorker_claim fn hph hc.err_none hlerr hS hcu]
        have hEle : (if c.index + ops > Size itp then Size itp
            else c.index + ops) ≤ Size itp := by split_ifs <;> omega
        have hElt : c.index < (if c.index + ops > Size itp then Size itp
            else c.index + ops) := by split_ifs <;> omega
        have hEle' : (if c.index + ops > Size itp then Size itp
            else c.index + ops) ≤ c.index + ops := by split_ifs <;> omega
        refine ⟨rfl, ?_, ?_, ?_, ?_, ?_, hc.visits_ok, ?_⟩
        · show 0 ≤ c.index + ops
          have := hc.index_nonneg
          omega
        · intro hlt
          show (if c.index + ops < Size itp then decodeDims dims (c.index + ops)
            else c.point) = decodeDims dims (c.index + ops)
          rw [if_pos hlt]
        · intro w'' hmem''
          rcases List.mem_or_eq_of_mem_set hmem'' with h'' | h''
          · exact hc.workers_err w'' h''
          · rw [h'']
            exact hlerr
        · intro w'' hmem'' hwork
          rcases List.mem_or_eq_of_mem_set hmem'' with h'' | h''
          · obtain ⟨k1, k2, k3, k4, k5⟩ := hc.workers_work w'' h'' hwork
            exact ⟨k1, k2, k3, by show w''.localEnd ≤ c.index + ops; omega, k5⟩
          · rw [h'']
            exact ⟨hc.index_nonneg, hElt.le, hEle, hEle', fun _ => hc.point_dec hS⟩
        · intro w'' hmem'' hdone
          rcases List.mem_or_eq_of_mem_set hmem'' with h'' | h''
          · have := hc.workers_done w'' h'' hdone
            show Size itp ≤ c.index + ops
            omega
          · rw [h''] at hdone
            exact absurd hdone (by simp)
        · intro i h0 hlt
          have hcnt := hc.count_ok i h0 hlt
          show vCount c.visits i + pendCount (c.workers.set wi { w with phase := .work, localIndex := c.index, localEnd := (if c.index + ops > Size itp then Size itp else c.index + ops), localPoint := c.point }) i + (if c.index + ops ≤ i then 1 else 0) = 1
          rw [pendCount_set _ hg i, pendB_of_claim hph]
          have hpn : pendB { w with phase := WPhase.work, localIndex := c.index, localEnd := (if c.index + ops > Size itp then Size itp else c.index + ops), localPoint := c.point } i = (decide (c.index ≤ i) && decide (i < (if c.index + ops > Size itp then Size itp else c.index + ops))) := pendB_of_work rfl i
          rcases le_or_lt c.index i with hci | hci
          · rw [if_pos hci] at hcnt
            by_cases hiE : i < (if c.index + ops > Size itp then Size itp
              else c.index + ops)
            · have hp1 : pendB { w with phase := WPhase.work, localIndex := c.index, localEnd := (if c.index + ops > Size itp then Size itp else c.index + ops), localPoint := c.point } i = true := by
                rw [hpn]
                simp [hci, hiE]
              rw [hp1, if_neg (show ¬ (c.index + ops ≤ i) by omega)]
              try rw [if_bool_true]
              try rw [if_bool_false]
              omega
            · have hp0 : pendB { w with phase := WPhase.work, localIndex := c.index, localEnd := (if c.index + ops > Size itp then Size itp else c.index + ops), localPoint := c.point } i = false := by
                rw [hpn]
                simp [hiE]
              have hyi : c.index + ops ≤ i := by
                split_ifs at hiE <;> omega
              rw [hp0, if_pos hyi]
              try rw [if_bool_true]
              try rw [if_bool_false]
              omega
          · rw [if_neg (by omega)] at hcnt
            have hp0 : pendB { w with phase := WPhase.work, localIndex := c.index, localEnd := (if c.index + ops > Size itp then Size itp else c.index + ops), localPoint := c.point } i = false := by
              rw [hpn]
              simp only [Bool.and_eq_false_iff, decide_eq_false_iff_not]
              left
              omega
            rw [hp0, if_neg (show ¬ (c.index + ops ≤ i) by omega)]
            try rw [if_bool_true]
            try rw [if_bool_false]
            omega
    | work =>
      obtain ⟨k1, k2, k3, k4, k5⟩ := hc.workers_work w hmem hph
      rcases lt_or_le w.localIndex w.localEnd with hlt | hge
      · -- one visit
        have hpt : w.localPoint = decodeDims dims w.localIndex := k5 hlt
        have hfn' : fn w.localPoint w.localIndex = none := hfn _ _
        by_cases heq : w.localIndex + 1 = w.localEnd
        · -- last element of the batch
          rw [stepWorker_visit_last ops hph hlt heq hfn']
          set nw : WState := ({ w with phase := .claim, localIndex := w.localIndex + 1, localErr := w.localErr } : WState) with hnw
          refine ⟨hc.err_none, hc.index_nonneg, hc.point_dec, ?_, ?_, ?_, ?_, ?_⟩
          · intro w'' hmem''
            rcases List.mem_or_eq_of_mem_set hmem'' with h'' | h''
            · exact hc.workers_err w'' h''
            · rw [h'']
              exact hlerr
          · intro w'' hmem'' hwork
            rcases List.mem_or_eq_of_mem_set hmem'' with h'' | h''
            · exact hc.workers_work w'' h'' hwork
            · rw [h''] at hwork
              exact absurd hwork (by simp)
          · intro w'' hmem'' hdone
            rcases List.mem_or_eq_of_mem_set hmem'' with h'' | h''
            · exact hc.workers_done w'' h'' hdone
            · rw [h''] at hdone
              exact absurd hdone (by simp)
          · intro v hv
            rcases List.mem_append.mp hv with hv | hv
            · exact hc.visits_ok v hv
            · rw [List.mem_singleton.mp hv]
              exact ⟨k1, by show w.localIndex < Size itp; omega, hpt⟩
          · intro i h0 hlt'
            have hcnt := hc.count_ok i h0 hlt'
            show vCount (c.visits ++ [(w.localPoint, w.localIndex)]) i + pendCount (c.workers.set wi { w with phase := .claim, localIndex := w.localIndex + 1, localErr := w.localErr }) i + (if c.index ≤ i then 1 else 0) = 1
            rw [vCount_append, pendCount_set _ hg i, pendB_of_work hph,
              pendB_of_claim (w := { w with phase := .claim, localIndex := w.localIndex + 1, localErr := w.localErr }) rfl]
            by_cases hi : w.localIndex = i
            · have hb1 : (decide (w.localIndex ≤ i) && decide (i < w.localEnd)) =
                  true := by
                simp only [Bool.and_eq_true, decide_eq_true_eq]
                omega
              have hpos : 1 ≤ pendCount c.workers i :=
                pendCount_pos hg (by rw [pendB_of_work hph]; exact hb1)
              rw [hb1, if_pos hi]
              try rw [if_bool_true]
              try rw [if_bool_false]
              omega
            · have hb0 : (decide (w.localIndex ≤ i) && decide (i < w.localEnd)) =
                  false := by
                simp only [Bool.and_eq_false_iff, decide_eq_false_iff_not]
                omega
              rw [hb0, if_neg hi]
              try rw [if_bool_true]
              try rw [if_bool_false]
              omega
        · -- middle of the batch
          have hinc : IncrementSafe itp w.localPoint =
              (true, none, decodeDims dims (w.localIndex + 1)) := by
            rw [hpt]
            exact incrementSafe_decode h k1 (by omega)
          rw [stepWorker_visit_mid ops hph hlt heq hfn' hinc]
          refine ⟨hc.err_none, hc.index_nonneg, hc.point_dec, ?_, ?_, ?_, ?_, ?_⟩
          · intro w'' hmem''
            rcases List.mem_or_eq_of_mem_set hmem'' with h'' | h''
            · exact hc.workers_err w'' h''
            · rw [h'']
              exact hlerr
          · intro w'' hmem'' hwork
            rcases List.mem_or_eq_of_mem_set hmem'' with h'' | h''
            · exact hc.workers_work w'' h'' hwork
            · rw [h'']
              refine ⟨by show 0 ≤ w.localIndex + 1; omega,
                by show w.localIndex + 1 ≤ w.localEnd; omega,
                k3, k4, ?_⟩
              intro _
              rfl
          · intro w'' hmem'' hdone
            rcases List.mem_or_eq_of_mem_set hmem'' with h'' | h''
            · exact hc.workers_done w'' h'' hdone
            · rw [h''] at hdone
              have : w.phase = WPhase.done := hdone
              rw [hph] at this
              exact absurd this (by simp)
          · intro v hv
            rcases List.mem_append.mp hv with hv | hv
            · exact hc.visits_ok v hv
            · rw [List.mem_singleton.mp hv]
              exact ⟨k1, by show w.localIndex < Size itp; omega, hpt⟩
          · intro i h0 hlt'
            have hcnt := hc.count_ok i h0 hlt'
            show vCount (c.visits ++ [(w.localPoint, w.localIndex)]) i + pendCount (c.workers.set wi { w with localIndex := w.localIndex + 1, localPoint := decodeDims dims (w.localIndex + 1), localErr := w.localErr }) i + (if c.index ≤ i then 1 else 0) = 1
            rw [vCount_append, pendCount_set _ hg i, pendB_of_work hph,
              pendB_of_work (w := { w with localIndex := w.localIndex + 1, localPoint := decodeDims dims (w.localIndex + 1), localErr := w.localErr }) hph i]
            by_cases hi : w.localIndex = i
            · have hb1 : (decide (w.localIndex ≤ i) && decide (i < w.localEnd)) =
                  true := by
                simp only [Bool.and_eq_true, decide_eq_true_eq]
                omega
              have hb2 : (decide (w.localIndex + 1 ≤ i) &&
                  decide (i < w.localEnd)) = false := by
                simp only [Bool.and_eq_false_iff, decide_eq_false_iff_not]
                left
                omega
              have hpos : 1 ≤ pendCount c.workers i :=
                pendCount_pos hg (by rw [pendB_of_work hph]; exact hb1)
              rw [hb1, hb2, if_pos hi]
              try rw [if_bool_true]
              try rw [if_bool_false]
              omega
            · have hbb : ((decide (w.localIndex ≤ i) && decide (i < w.localEnd)) =
                  true) ↔ ((decide (w.localIndex + 1 ≤ i) &&
                    decide (i < w.localEnd)) = true) := by
                simp only [Bool.and_eq_true, decide_eq_true_eq]
                omega
              rw [if_neg hi]
              by_cases hx : (decide (w.localIndex ≤ i) && decide (i < w.localEnd)) = true
              · have hpos : 1 ≤ pendCount c.workers i :=
                  pendCount_pos hg (by rw [pendB_of_work hph]; exact hx)
                rw [hx, hbb.mp hx]
                try rw [if_bool_true]
                try rw [if_bool_false]
                omega
              · have hx2 : (decide (w.localIndex + 1 ≤ i) &&
                    decide (i < w.localEnd)) = false :=
                  Bool.eq_false_iff.mpr (fun ht => hx (hbb.mpr ht))
                rw [Bool.eq_false_iff.mpr hx, hx2]
                try rw [if_bool_true]
                try rw [if_bool_false]
                omega
      · -- the batch guard fails immediately
        rw [stepWorker_idle ops hph (by omega)]
        refine ⟨hc.err_none, hc.index_nonneg, hc.point_dec, ?_, ?_, ?_,
          hc.visits_ok, ?_⟩
        · intro w'' hmem''
          rcases List.mem_or_eq_of_mem_set hmem'' with h'' | h''
          · exact hc.workers_err w'' h''
          · rw [h'']
            exact hlerr
        · intro w'' hmem'' hwork
          rcases List.mem_or_eq_of_mem_set hmem'' with h'' | h''
          · exact hc.workers_work w'' h'' hwork
          · rw [h''] at hwork
            exact absurd hwork (by simp)
        · intro w'' hmem'' hdone
          rcases List.mem_or_eq_of_mem_set hmem'' with h'' | h''
          · exact hc.workers_done w'' h'' hdone
          · rw [h''] at hdone
            exact absurd hdone (by simp)
        · intro i h0 hlt'
          have hcnt := hc.count_ok i h0 hlt'
          show vCount c.visits i +
            pendCount (c.workers.set wi { w with phase := .claim }) i +
            (if c.index ≤ i then 1 else 0) = 1
          rw [pendCount_set _ hg i, pendB_of_work hph,
            pendB_of_claim (w := { w with phase := .claim }) rfl]
          have hb0 : (decide (w.localIndex ≤ i) && decide (i < w.localEnd)) =
              false := by
            simp only [Bool.and_eq_false_iff, decide_eq_false_iff_not]
            omega
          rw [hb0]
          simpa using hcnt

theorem engineInv_init {dims : List Int} {itp : Interpreter}
    (h : NewInterpreterSafe dims = .ok itp) (t : Nat) :
    EngineInv itp dims (initState itp t) := by
  obtain ⟨hD, -, hne, hpos⟩ := newInterpreterSafe_ok h
  refine ⟨rfl, le_refl 0, ?_, ?_, ?_, ?_, ?_, ?_⟩
  · intro _
    show List.replicate itp.Dims.length 0 = decodeDims dims 0
    rw [hD, decodeDims_zero hpos]
  · intro w hw
    rw [List.eq_of_mem_replicate hw]
  · intro w hw hwork
    rw [List.eq_of_mem_replicate hw] at hwork
    exact absurd hwork (by simp)
  · intro w hw hdone
    rw [List.eq_of_mem_replicate hw] at hdone
    exact absurd hdone (by simp)
  · intro v hv
    exact absurd hv (List.not_mem_nil v)
  · intro i h0 hlt
    show vCount [] i +
      pendCount (List.replicate t ⟨.claim, none, 0, 0, []⟩) i +
      (if (0 : Int) ≤ i then 1 else 0) = 1
    rw [if_pos h0]
    have h2 : pendCount (List.replicate t ⟨.claim, none, 0, 0, []⟩) i = 0 := by
      rw [pendCount, List.countP_eq_zero]
      intro w hw
      rw [List.eq_of_mem_replicate hw]
      rw [pendB_of_claim rfl]
      simp
    rw [h2]
    rfl

theorem engineInv_reach {dims : List Int} {itp : Interpreter}
    (h : NewInterpreterSafe dims = .ok itp) (fn : Visitor)
    (hfn : ∀ p i, fn p i = none) {ops : Int} (hops : 1 ≤ ops)
    {c c' : MState} (hr : MReach itp fn ops c c') (hc : EngineInv itp dims c) :
    EngineInv itp dims c' := by
  induction hr with
  | refl => exact hc
  | tail _ hstep ih =>
    obtain ⟨wi, rfl⟩ := hstep
    exact engineInv_step h fn hfn hops ih wi

/-- C1 (amended): for every valid interpreter, every threading configuration
(including nil), and every non-nil visitor *that never reports failure*, any
complete traversal of `MapApplySafe`/`generalMapApply` — no matter how the
concurrent workers interleave — invokes the visitor exactly once for each index
in `[0, Size)`, with no index skipped, none visited twice, and no visit outside
that range.  (The restriction to never-failing visitors is forced by the
counterexample: a visitor failure suppresses all further batch claims by
design, so a failing visitor can leave indices unvisited.) -/
theorem claim_C1_amended {dims : List Int} {itp : Interpreter}
    (h : NewInterpreterSafe dims = .ok itp) (fn : Visitor)
    (hfn : ∀ p i, fn p i = none) (opts : Option ThreadingOptions)
    {c : MState} (hrun : generalMapApplyRun itp fn opts c) :
    (∀ i : Int, 0 ≤ i → i < Size itp → vCount c.visits i = 1) ∧
    (∀ v ∈ c.visits, 0 ≤ v.2 ∧ v.2 < Size itp) := by
  obtain ⟨hreach, hdone⟩ := hrun
  have hops : 1 ≤ (normalizeOptions itp opts).OpsPerThread := by
    cases opts with
    | none =>
      show 1 ≤ Size itp
      have := size_pos h
      omega
    | some o =>
      show 1 ≤ (if o.OpsPerThread < 1 then 1 else o.OpsPerThread)
      split_ifs <;> omega
  have hinv := engineInv_reach h fn hfn hops hreach (engineInv_init h _)
  have hlen : c.workers.length = (normalizeOptions itp opts).NumThreads.toNat := by
    rw [mreach_workers_length hreach]
    show (List.replicate _ _).length = _
    rw [List.length_replicate]
  have ht1 : 1 ≤ (normalizeOptions itp opts).NumThreads.toNat := by
    cases opts with
    | none => exact le_refl 1
    | some o =>
      show 1 ≤ (if o.NumThreads < 1 then 1 else o.NumThreads).toNat
      split_ifs <;> omega
  have hSle : Size itp ≤ c.index := by
    have hne : c.workers ≠ [] := by
      intro hnil
      rw [hnil] at hlen
      simp at hlen
      omega
    obtain ⟨w, hw⟩ := List.exists_mem_of_ne_nil c.workers hne
    exact hinv.workers_done w hw (hdone w hw)
  constructor
  · intro i h0 hlt
    have hcnt := hinv.count_ok i h0 hlt
    have hpend : pendCount c.workers i = 0 := by
      rw [pendCount, List.countP_eq_zero]
      intro w hw
      rw [pendB_of_done (hdone w hw)]
      simp
    rw [if_neg (by omega), hpend] at hcnt
    omega
  · intro v hv
    exact ⟨(hinv.visits_ok v hv).1, (hinv.visits_ok v hv).2.1⟩

/-- The never-failing visitor used in witnesses. -/
def fnNone : Visitor := fun _ _ => none

/-- Witness for C1 (amended) on the shape `[2]` with nil options: the canonical
single-worker run visits indices 0 and 1 exactly once each. -/
theorem claim_C1_amended_witness :
    vCount (runSched ⟨[2],[2]⟩ fnNone 2 [0, 0, 0, 0]
      (initState ⟨[2],[2]⟩ 1)).visits 0 = 1 ∧
    vCount (runSched ⟨[2],[2]⟩ fnNone 2 [0, 0, 0, 0]
      (initState ⟨[2],[2]⟩ 1)).visits 1 = 1 := by
  have hr : generalMapApplyRun ⟨[2],[2]⟩ fnNone none
      (runSched ⟨[2],[2]⟩ fnNone 2 [0, 0, 0, 0] (initState ⟨[2],[2]⟩ 1)) :=
    ⟨runSched_reach ⟨[2],[2]⟩ fnNone 2 [0, 0, 0, 0] (initState ⟨[2],[2]⟩ 1),
      by decide⟩
  have hmain := claim_C1_amended (show NewInterpreterSafe [2] = .ok ⟨[2],[2]⟩
    by decide) fnNone (fun _ _ => rfl) none hr
  exact ⟨hmain.1 0 (by decide) (by decide), hmain.1 1 (by decide) (by decide)⟩

/-! ### Single-worker runs: exact batch-by-batch characterization

With `NumThreads = 1` the interleaving collapses: steps of any other worker id
are identities, so every reachable state is an iterate of worker 0's step
function.  The orbit of that function from the initial state claims the batches
`[b·ops, min((b+1)·ops, Size))` in order, walking each index by index; as long
as every visited index succeeded the worker keeps claiming, and the run ends at
the first batch that contains a failure (its last failure is published) or at
the batch that exhausts the space. -/

/-- The cursor position at which the `b`-th batch is claimed. -/
def bStart (ops : Int) (b : Nat) : Int := (b : Int) * ops

/-- The clamped end of the `b`-th claimed batch: `localEnd` as computed by the
worker from a cursor at `bStart ops b` (`mapapply.go` lines 203-207). -/
def bEnd (itp : Interpreter) (ops : Int) (b : Nat) : Int :=
  if bStart ops b + ops > Size itp then Size itp else bStart ops b + ops

theorem bStart_nonneg {ops : Int} (hops : 1 ≤ ops) (b : Nat) :
    0 ≤ bStart ops b :=
  mul_nonneg (Int.natCast_nonneg b) (by omega)

theorem bStart_succ_le {ops : Int} (hops : 1 ≤ ops) {x y : Nat} (hxy : x < y) :
    bStart ops x + ops ≤ bStart ops y := by
  unfold bStart
  have h1 : (x : Int) + 1 ≤ (y : Int) := by omega
  calc (x : Int) * ops + ops = ((x : Int) + 1) * ops := by ring
    _ ≤ (y : Int) * ops := mul_le_mul_of_nonneg_right h1 (by omega)

theorem bEnd_le (itp : Interpreter) (ops : Int) (b : Nat) :
    bEnd itp ops b ≤ Size itp := by
  unfold bEnd
  split_ifs <;> omega

theorem bEnd_le_start (itp : Interpreter) (ops : Int) (b : Nat) :
    bEnd itp ops b ≤ bStart ops b + ops := by
  unfold bEnd
  split_ifs <;> omega

/-- The visit trace of the first `k` indices, in increasing order, each paired
with its decoded point. -/
def idxTrace (dims : List Int) (k : Nat) : List (List Int × Int) :=
  (List.range k).map (fun j : Nat => (decodeDims dims (j : Int), (j : Int)))

theorem idxTrace_zero (dims : List Int) : idxTrace dims 0 = [] := rfl

theorem idxTrace_succ (dims : List Int) (k : Nat) :
    idxTrace dims (k + 1) =
      idxTrace dims k ++ [(decodeDims dims (k : Int), (k : Int))] := by
  unfold idxTrace
  rw [List.range_succ, List.map_append]
  rfl

/-- The worker's `localErr` after visiting indices `[0, k)`: each visitor
failure overwrites the previous value (`localErr = err` in `mapapply.go` line
216), so this is the *last* failure among the first `k` indices. -/
def batchErr (fn : Visitor) (dims : List Int) : Nat → Option Err
  | 0 => none
  | k + 1 => (fn (decodeDims dims (k : Int)) (k : Int)).or (batchErr fn dims k)

theorem batchErr_none (fn : Visitor) (dims : List Int)
    (hfn : ∀ p i, fn p i = none) (k : Nat) : batchErr fn dims k = none := by
  induction k with
  | zero => rfl
  | succ k ih =>
    show (fn _ _).or (batchErr fn dims k) = none
    rw [hfn, ih]
    rfl

theorem batchErr_isSome {fn : Visitor} {dims : List Int} : ∀ n : Nat,
    (∃ j : Nat, j < n ∧ (fn (decodeDims dims (j : Int)) (j : Int)).isSome = true) →
    (batchErr fn dims n).isSome = true := by
  intro n
  induction n with
  | zero =>
    rintro ⟨j, hj, -⟩
    omega
  | succ n ih =>
    rintro ⟨j, hj, hs⟩
    show ((fn (decodeDims dims (n : Int)) (n : Int)).or (batchErr fn dims n)).isSome = true
    cases hfn : fn (decodeDims dims (n : Int)) (n : Int) with
    | some e => rfl
    | none =>
      rw [Option.none_or]
      apply ih
      rcases Nat.lt_succ_iff_lt_or_eq.mp hj with hlt | rfl
      · exact ⟨j, hlt, hs⟩
      · rw [hfn] at hs
        exact absurd hs (by decide)

/-- `batchErr` over a batch containing a failure equals the visitor's verdict
at the *last* failing index of the batch. -/
theorem batchErr_last {fn : Visitor} {dims : List Int} : ∀ n : Nat,
    (batchErr fn dims n).isSome = true →
    ∃ j : Nat, j < n ∧ batchErr fn dims n = fn (decodeDims dims (j : Int)) (j : Int) ∧
      (fn (decodeDims dims (j : Int)) (j : Int)).isSome = true ∧
      ∀ j' : Nat, j < j' → j' < n → fn (decodeDims dims (j' : Int)) (j' : Int) = none := by
  intro n
  induction n with
  | zero =>
    intro hs
    simp [batchErr] at hs
  | succ n ih =>
    intro hs
    cases hfn : fn (decodeDims dims (n : Int)) (n : Int) with
    | some e =>
      refine ⟨n, Nat.lt_succ_self n, ?_, ?_, ?_⟩
      · show (fn (decodeDims dims (n : Int)) (n : Int)).or (batchErr fn dims n) = _
        rw [hfn]
        rfl
      · rw [hfn]
        rfl
      · intro j' h1 h2
        omega
    | none =>
      have hb : batchErr fn dims (n + 1) = batchErr fn dims n := by
        show (fn (decodeDims dims (n : Int)) (n : Int)).or (batchErr fn dims n) = _
        rw [hfn, Option.none_or]
      rw [hb] at hs
      obtain ⟨j, hj, h1, h2, h3⟩ := ih hs
      refine ⟨j, by omega, by rw [hb]; exact h1, h2, ?_⟩
      intro j' hlt h2'
      rcases Nat.lt_succ_iff_lt_or_eq.mp h2' with hlt2 | rfl
      · exact h3 j' hlt hlt2
      · exact hfn

/-- A clean `batchErr` means every one of the first `n` indices succeeded. -/
theorem batchErr_eq_none {fn : Visitor} {dims : List Int} : ∀ n : Nat,
    batchErr fn dims n = none →
    ∀ j : Nat, j < n → fn (decodeDims dims (j : Int)) (j : Int) = none := by
  intro n
  induction n with
  | zero =>
    intro _ j hj
    omega
  | succ n ih =>
    intro hn j hj
    have hsplit : (fn (decodeDims dims (n : Int)) (n : Int)).or
        (batchErr fn dims n) = none := hn
    cases hfn : fn (decodeDims dims (n : Int)) (n : Int) with
    | some e =>
      rw [hfn] at hsplit
      exact absurd hsplit (by simp)
    | none =>
      rw [hfn, Option.none_or] at hsplit
      rcases Nat.lt_succ_iff_lt_or_eq.mp hj with hlt | rfl
      · exact ih hsplit j hlt
      · exact hfn

/-- A step of a worker id outside the pool does nothing. -/
theorem stepW_none {c : MState} {wi : Nat} (hg : c.workers.get? wi = none)
    (itp : Interpreter) (fn : Visitor) (ops : Int) :
    stepW itp fn ops c wi = c := by
  unfold stepW
  rw [hg]

/-- With a single worker, every reachable state is an iterate of worker 0's
step function: steps of any other worker id do nothing. -/
theorem mreach_single_iterate {itp : Interpreter} {fn : Visitor} {ops : Int}
    {c₀ c : MState} (h1 : c₀.workers.length = 1)
    (hr : MReach itp fn ops c₀ c) :
    ∃ m : Nat, c = (fun d => stepW itp fn ops d 0)^[m] c₀ := by
  induction hr with
  | refl => exact ⟨0, rfl⟩
  | tail hmid hstep ih =>
    obtain ⟨m, hm⟩ := ih
    obtain ⟨wi, hwi⟩ := hstep
    rw [hm] at hwi hmid
    cases wi with
    | zero =>
      refine ⟨m + 1, ?_⟩
      rw [hwi, Function.iterate_succ_apply']
    | succ wj =>
      refine ⟨m, ?_⟩
      have hlen : ((fun d => stepW itp fn ops d 0)^[m] c₀).workers.length = 1 := by
        rw [mreach_workers_length hmid, h1]
      have hg : ((fun d => stepW itp fn ops d 0)^[m] c₀).workers.get? (wj + 1) = none := by
        rw [List.get?_eq_none, hlen]
        omega
      rw [hwi, stepW_none hg]

/-- Computation rule: a worker carrying a local error publishes it as the
shared error and returns. -/
theorem stepWorker_publish {itp : Interpreter} (fn : Visitor) (ops : Int)
    {c : MState} {wi : Nat} {w : WState} (hph : w.phase = WPhase.claim)
    (herr : c.err = none) (hlerr : w.localErr.isSome = true) :
    stepWorker itp fn ops c wi w =
      { c with err := w.localErr,
               workers := c.workers.set wi { w with phase := .done } } := by
  have herrS : c.err.isSome = false := by rw [herr]; rfl
  unfold stepWorker
  rw [hph]
  unfold claimStep
  rw [herrS, hlerr]
  simp only [Bool.false_eq_true, if_false, if_true]

/-- The three mid-run shapes of a single-worker state: inside the `b`-th
claimed batch at index `k`, back at the top of the outer loop after finishing
the `b`-th batch, and returned after the `b`-th batch. -/
def walkW (itp : Interpreter) (dims : List Int) (fn : Visitor) (ops : Int)
    (b : Nat) (q : List Int) (k : Nat) : MState :=
  { index := bStart ops b + ops, point := q, err := none,
    workers := [⟨WPhase.work, batchErr fn dims k, (k : Int), bEnd itp ops b,
                 decodeDims dims (k : Int)⟩],
    visits := idxTrace dims k }

def walkClaim (itp : Interpreter) (dims : List Int) (fn : Visitor) (ops : Int)
    (b : Nat) (li : Int) (q lp : List Int) : MState :=
  { index := bStart ops b + ops, point := q, err := none,
    workers := [⟨WPhase.claim, batchErr fn dims (bEnd itp ops b).toNat, li,
                 bEnd itp ops b, lp⟩],
    visits := idxTrace dims (bEnd itp ops b).toNat }

def walkDone (itp : Interpreter) (dims : List Int) (fn : Visitor) (ops : Int)
    (b : Nat) (li : Int) (q lp : List Int) : MState :=
  { index := bStart ops b + ops, point := q,
    err := batchErr fn dims (bEnd itp ops b).toNat,
    workers := [⟨WPhase.done, batchErr fn dims (bEnd itp ops b).toNat, li,
                 bEnd itp ops b, lp⟩],
    visits := idxTrace dims (bEnd itp ops b).toNat }

/-- The orbit of the single worker's step function: every iterate is the
initial state, a mid-batch state of some batch `b` all of whose predecessors
were clean, the post-batch claim state of such a `b`, or the final returned
state — reached exactly when batch `b` contained a failure or exhausted the
space. -/
theorem single_orbit {dims : List Int} {itp : Interpreter}
    (h : NewInterpreterSafe dims = .ok itp) (fn : Visitor) {ops : Int}
    (hops : 1 ≤ ops) (m : Nat) :
    (fun d => stepW itp fn ops d 0)^[m] (initState itp 1) = initState itp 1 ∨
    (∃ (b : Nat) (q : List Int) (k : Nat),
      (∀ j : Nat, (j : Int) < bStart ops b →
        fn (decodeDims dims (j : Int)) (j : Int) = none) ∧
      bStart ops b < Size itp ∧
      (bStart ops b + ops < Size itp → q = decodeDims dims (bStart ops b + ops)) ∧
      (k : Int) < bEnd itp ops b ∧
      (fun d => stepW itp fn ops d 0)^[m] (initState itp 1) =
        walkW itp dims fn ops b q k) ∨
    (∃ (b : Nat) (li : Int) (q lp : List Int),
      (∀ j : Nat, (j : Int) < bStart ops b →
        fn (decodeDims dims (j : Int)) (j : Int) = none) ∧
      bStart ops b < Size itp ∧
      (bStart ops b + ops < Size itp → q = decodeDims dims (bStart ops b + ops)) ∧
      (fun d => stepW itp fn ops d 0)^[m] (initState itp 1) =
        walkClaim itp dims fn ops b li q lp) ∨
    (∃ (b : Nat) (li : Int) (q lp : List Int),
      (∀ j : Nat, (j : Int) < bStart ops b →
        fn (decodeDims dims (j : Int)) (j : Int) = none) ∧
      bStart ops b < Size itp ∧
      ((batchErr fn dims (bEnd itp ops b).toNat).isSome = true ∨
        Size itp ≤ bStart ops b + ops) ∧
      (fun d => stepW itp fn ops d 0)^[m] (initState itp 1) =
        walkDone itp dims fn ops b li q lp) := by
  obtain ⟨hD, -, hne, hpos⟩ := newInterpreterSafe_ok h
  have hS1 : 0 < Size itp := size_pos h
  induction m with
  | zero => left; rfl
  | succ m ih =>
    rw [Function.iterate_succ_apply']
    rcases ih with h0 | ⟨b, q, k, hcl, hblt, hq, hklt, hW⟩ |
      ⟨b, li, q, lp, hcl, hblt, hq, hC⟩ | ⟨b, li, q, lp, hcl, hblt, hterm, hDn⟩
    · rw [h0]
      right; left
      have h00 : bStart ops 0 = 0 := by simp [bStart]
      have hp0 : (initState itp 1).point = decodeDims dims 0 := by
        show List.replicate itp.Dims.length 0 = _
        rw [hD, decodeDims_zero hpos]
      have hcu := claimUpdate_ok h hops (le_refl 0) hS1 hp0
      have hbE0 : bEnd itp ops 0 =
          if 0 + ops > Size itp then Size itp else 0 + ops := by
        unfold bEnd
        rw [h00]
      refine ⟨0, if (0 : Int) + ops < Size itp then decodeDims dims (0 + ops)
        else (initState itp 1).point, 0, ?_, ?_, ?_, ?_, ?_⟩
      · intro j hj
        rw [h00] at hj
        exact absurd hj (by omega)
      · rw [h00]
        exact hS1
      · intro hlt
        rw [h00] at hlt ⊢
        rw [if_pos hlt]
      · rw [hbE0]
        simp only [Nat.cast_zero]
        split_ifs <;> omega
      · have hg : (initState itp 1).workers.get? 0 =
            some ⟨WPhase.claim, none, 0, 0, []⟩ := rfl
        have hph : (⟨WPhase.claim, none, 0, 0, []⟩ : WState).phase =
            WPhase.claim := rfl
        rw [stepW_eq hg, stepWorker_claim fn hph rfl rfl hS1 hcu]
        simp only [initState, walkW, idxTrace_zero, batchErr, Nat.cast_zero,
          List.replicate_one, List.set_cons_zero, h00, hbE0, hD,
          decodeDims_zero hpos]
    · rw [hW]
      have h0b : 0 ≤ bStart ops b := bStart_nonneg hops b
      have hbES : bEnd itp ops b ≤ Size itp := bEnd_le itp ops b
      have h0bE : 0 ≤ bEnd itp ops b := by omega
      have hnEb : ((bEnd itp ops b).toNat : Int) = bEnd itp ops b :=
        Int.toNat_of_nonneg h0bE
      have hg : (walkW itp dims fn ops b q k).workers.get? 0 =
          some ⟨WPhase.work, batchErr fn dims k, (k : Int), bEnd itp ops b,
                decodeDims dims (k : Int)⟩ := rfl
      have hph : (⟨WPhase.work, batchErr fn dims k, (k : Int), bEnd itp ops b,
          decodeDims dims (k : Int)⟩ : WState).phase = WPhase.work := rfl
      by_cases hlast : k + 1 = (bEnd itp ops b).toNat
      · right; right; left
        refine ⟨b, (k : Int) + 1, q, decodeDims dims (k : Int), hcl, hblt, hq, ?_⟩
        have heq : (k : Int) + 1 = bEnd itp ops b := by omega
        rw [stepW_eq hg, stepWorker_visit_last ops hph hklt heq rfl]
        simp only [walkW, walkClaim, List.set_cons_zero, ← hlast, idxTrace_succ,
          batchErr]
      · right; left
        have hkne : (k : Int) + 1 ≠ bEnd itp ops b := by omega
        have hinc := incrementSafe_decode h (by omega : (0 : Int) ≤ (k : Int))
          (by omega : (k : Int) + 1 < Size itp)
        refine ⟨b, q, k + 1, hcl, hblt, hq, by push_cast; omega, ?_⟩
        rw [stepW_eq hg, stepWorker_visit_mid ops hph hklt hkne rfl hinc]
        simp only [walkW, List.set_cons_zero, idxTrace_succ, Nat.cast_succ,
          batchErr]
    · rw [hC]
      have h0b : 0 ≤ bStart ops b := bStart_nonneg hops b
      have hg : (walkClaim itp dims fn ops b li q lp).workers.get? 0 =
          some ⟨WPhase.claim, batchErr fn dims (bEnd itp ops b).toNat, li,
                bEnd itp ops b, lp⟩ := rfl
      have hph : (⟨WPhase.claim, batchErr fn dims (bEnd itp ops b).toNat, li,
          bEnd itp ops b, lp⟩ : WState).phase = WPhase.claim := rfl
      cases hbe : batchErr fn dims (bEnd itp ops b).toNat with
      | some e =>
        right; right; right
        refine ⟨b, li, q, lp, hcl, hblt, Or.inl (by rw [hbe]; rfl), ?_⟩
        rw [stepW_eq hg, stepWorker_publish fn ops hph rfl (by rw [hbe]; rfl)]
        simp only [walkClaim, walkDone, List.set_cons_zero]
      | none =>
        by_cases hnext : bStart ops b + ops < Size itp
        · right; left
          have hsucc : bStart ops (b + 1) = bStart ops b + ops := by
            unfold bStart
            push_cast
            ring
          have hqe : q = decodeDims dims (bStart ops b + ops) := hq hnext
          have hcu := claimUpdate_ok h hops
            (show (0 : Int) ≤ bStart ops b + ops by omega) hnext hqe
          have hbEeq : bEnd itp ops b = bStart ops b + ops := by
            unfold bEnd
            rw [if_neg (by omega)]
          have hnE' : ((bStart ops b + ops).toNat : Int) = bStart ops b + ops :=
            Int.toNat_of_nonneg (by omega)
          have hbE' : bEnd itp ops (b + 1) =
              if (bStart ops b + ops) + ops > Size itp then Size itp
              else (bStart ops b + ops) + ops := by
            unfold bEnd
            rw [hsucc]
          refine ⟨b + 1, (if (bStart ops b + ops) + ops < Size itp then
              decodeDims dims ((bStart ops b + ops) + ops) else q),
            (bStart ops b + ops).toNat, ?_, ?_, ?_, ?_, ?_⟩
          · intro j hj
            rw [hsucc] at hj
            exact batchErr_eq_none _ hbe j (by omega)
          · rw [hsucc]
            exact hnext
          · intro hlt
            rw [hsucc] at hlt ⊢
            rw [if_pos hlt]
          · rw [hnE', hbE']
            split_ifs <;> omega
          · have herr2 : (walkClaim itp dims fn ops b li q lp).err = none := rfl
            have hSlt : (walkClaim itp dims fn ops b li q lp).index <
                Size itp := hnext
            rw [stepW_eq hg, stepWorker_claim fn hph herr2 hbe hSlt hcu]
            simp only [walkClaim, walkW, List.set_cons_zero, hbEeq, hsucc,
              hbE', hnE', hqe]
        · right; right; right
          refine ⟨b, li, q, lp, hcl, hblt, Or.inr (by omega), ?_⟩
          rw [stepW_eq hg, stepWorker_retire fn ops hph rfl hbe
            (show Size itp ≤ (walkClaim itp dims fn ops b li q lp).index by
              show Size itp ≤ bStart ops b + ops
              omega)]
          simp only [walkClaim, walkDone, List.set_cons_zero, hbe]
    · rw [hDn]
      right; right; right
      exact ⟨b, li, q, lp, hcl, hblt, hterm, rfl⟩

/-- Any complete single-worker run ends right after some batch `b` whose
predecessors were all clean: the visit trace is exactly the indices up to the
end of batch `b`, in increasing order, the shared error is `batchErr` up to
that point (the last failure, if any), and batch `b` either contained a
failure or exhausted the space. -/
theorem single_run_final {dims : List Int} {itp : Interpreter}
    (h : NewInterpreterSafe dims = .ok itp) (fn : Visitor) {ops : Int}
    (hops : 1 ≤ ops)
    {c : MState} (hreach : MReach itp fn ops (initState itp 1) c)
    (hdone : AllDone c) :
    ∃ b : Nat,
      (∀ j : Nat, (j : Int) < bStart ops b →
        fn (decodeDims dims (j : Int)) (j : Int) = none) ∧
      bStart ops b < Size itp ∧
      ((batchErr fn dims (bEnd itp ops b).toNat).isSome = true ∨
        Size itp ≤ bStart ops b + ops) ∧
      c.err = batchErr fn dims (bEnd itp ops b).toNat ∧
      c.visits = idxTrace dims (bEnd itp ops b).toNat := by
  obtain ⟨m, rfl⟩ := mreach_single_iterate
    (show (initState itp 1).workers.length = 1 from rfl) hreach
  rcases single_orbit h fn hops m with
    h0 | ⟨b, q, k, -, -, -, -, hW⟩ | ⟨b, li, q, lp, -, -, -, hC⟩ |
    ⟨b, li, q, lp, hcl, hblt, hterm, hDn⟩
  · rw [h0] at hdone
    have := hdone ⟨WPhase.claim, none, 0, 0, []⟩
      (List.mem_replicate.mpr ⟨Nat.one_ne_zero, rfl⟩)
    simp at this
  · rw [hW] at hdone
    have := hdone ⟨WPhase.work, batchErr fn dims k, (k : Int), bEnd itp ops b,
      decodeDims dims (k : Int)⟩ (List.mem_singleton.mpr rfl)
    simp at this
  · rw [hC] at hdone
    have := hdone ⟨WPhase.claim, batchErr fn dims (bEnd itp ops b).toNat, li,
      bEnd itp ops b, lp⟩ (List.mem_singleton.mpr rfl)
    simp at this
  · rw [hDn]
    exact ⟨b, hcl, hblt, hterm, rfl, rfl⟩

/-- C8: with nil threading options and a never-failing visitor, the engine runs
as a single worker with `OpsPerThread = Size` — one batch covering everything:
the visitor is invoked exactly once per index, in strictly increasing order
`0, 1, …, Size()-1`, each time with the point `PointSafe(i)` yields, and the
run finishes with a nil error. -/
theorem claim_C8 {dims : List Int} {itp : Interpreter}
    (h : NewInterpreterSafe dims = .ok itp) (fn : Visitor)
    (hfn : ∀ p i, fn p i = none) {c : MState}
    (hrun : generalMapApplyRun itp fn none c) :
    normalizeOptions itp none = ⟨Size itp, 1⟩ ∧
    c.err = none ∧
    c.visits = idxTrace dims (Size itp).toNat ∧
    ∀ k : Nat, k < (Size itp).toNat →
      PointSafe itp (k : Int) = .ok (decodeDims dims (k : Int)) := by
  obtain ⟨hreach, hdone⟩ := hrun
  have hS1 : 0 < Size itp := size_pos h
  have hreach' : MReach itp fn (Size itp) (initState itp 1) c := hreach
  obtain ⟨b, -, hblt, hterm, herr, hvis⟩ :=
    single_run_final h fn hS1 hreach' hdone
  have hcov : Size itp ≤ bStart (Size itp) b + Size itp := by
    rcases hterm with hsome | hcov
    · rw [batchErr_none fn dims hfn] at hsome
      simp at hsome
    · exact hcov
  have hbeS : bEnd itp (Size itp) b = Size itp := by
    unfold bEnd
    split_ifs <;> omega
  rw [hbeS, batchErr_none fn dims hfn] at herr
  rw [hbeS] at hvis
  have hnS : ((Size itp).toNat : Int) = Size itp := Int.toNat_of_nonneg (by omega)
  refine ⟨rfl, herr, hvis, ?_⟩
  intro k hk
  exact pointSafe_ok h (by omega) (by omega)

/-- Witness for C8 on the shape `[2]`: the canonical nil-options run visits
`[([0],0), ([1],1)]` and returns no error. -/
theorem claim_C8_witness :
    (runSched ⟨[2],[2]⟩ fnNone 2 [0, 0, 0, 0] (initState ⟨[2],[2]⟩ 1)).err = none ∧
    (runSched ⟨[2],[2]⟩ fnNone 2 [0, 0, 0, 0] (initState ⟨[2],[2]⟩ 1)).visits =
      idxTrace [2] (Size ⟨[2],[2]⟩).toNat := by
  have hr : generalMapApplyRun ⟨[2],[2]⟩ fnNone none
      (runSched ⟨[2],[2]⟩ fnNone 2 [0, 0, 0, 0] (initState ⟨[2],[2]⟩ 1)) :=
    ⟨runSched_reach ⟨[2],[2]⟩ fnNone 2 [0, 0, 0, 0] (initState ⟨[2],[2]⟩ 1),
      by decide⟩
  have hmain := claim_C8 (show NewInterpreterSafe [2] = .ok ⟨[2],[2]⟩ by decide)
    fnNone (fun _ _ => rfl) hr
  exact ⟨hmain.2.1, hmain.2.2.1⟩

/-- C6 (amended): with a single worker, when the visitor fails on one or more
indices — in particular on two or more — within a claimed batch
`[bStart, bEnd) = [B·ops, min((B+1)·ops, Size))` while succeeding on every
index before that batch, every index of that already-claimed batch is still
visited, in increasing order, no new batch is started afterwards, and the
error returned is the visitor's *last* failure in that batch: each failure
overwrites the worker's local error (`localErr = err`), so an earlier failure
is lost whenever a later one follows. -/
theorem claim_C6_amended {dims : List Int} {itp : Interpreter}
    (h : NewInterpreterSafe dims = .ok itp) (fn : Visitor) {ops : Int}
    (hops : 1 ≤ ops) {c : MState}
    (hrun : generalMapApplyRun itp fn (some ⟨ops, 1⟩) c)
    (B : Nat) (hstart : bStart ops B < Size itp)
    (hclean : ∀ j : Nat, (j : Int) < bStart ops B →
      fn (decodeDims dims (j : Int)) (j : Int) = none)
    (hfail : ∃ j : Nat, (bStart ops B).toNat ≤ j ∧ (j : Int) < bEnd itp ops B ∧
      (fn (decodeDims dims (j : Int)) (j : Int)).isSome = true) :
    c.visits = idxTrace dims (bEnd itp ops B).toNat ∧
    ∃ j : Nat, (bStart ops B).toNat ≤ j ∧ (j : Int) < bEnd itp ops B ∧
      c.err = fn (decodeDims dims (j : Int)) (j : Int) ∧
      (fn (decodeDims dims (j : Int)) (j : Int)).isSome = true ∧
      ∀ j' : Nat, j < j' → (j' : Int) < bEnd itp ops B →
        fn (decodeDims dims (j' : Int)) (j' : Int) = none := by
  obtain ⟨hreach, hdone⟩ := hrun
  have hopseq : (normalizeOptions itp (some ⟨ops, 1⟩)).OpsPerThread = ops := by
    show (if ops < 1 then 1 else ops) = ops
    rw [if_neg (by omega)]
  have hnt : (normalizeOptions itp (some ⟨ops, 1⟩)).NumThreads.toNat = 1 := by
    show (if (1 : Int) < 1 then 1 else (1 : Int)).toNat = 1
    rw [if_neg (by omega)]
    rfl
  rw [hopseq, hnt] at hreach
  obtain ⟨b, hcl, hblt, hterm, herr, hvis⟩ := single_run_final h fn hops hreach hdone
  have h0B : 0 ≤ bStart ops B := bStart_nonneg hops B
  have h0b : 0 ≤ bStart ops b := bStart_nonneg hops b
  have hbE_le2 : bEnd itp ops b ≤ bStart ops b + ops := bEnd_le_start itp ops b
  have hBE_le2 : bEnd itp ops B ≤ bStart ops B + ops := bEnd_le_start itp ops B
  have h0bE : 0 ≤ bEnd itp ops b := by
    unfold bEnd
    have := size_pos h
    split_ifs <;> omega
  have hnEb : ((bEnd itp ops b).toNat : Int) = bEnd itp ops b :=
    Int.toNat_of_nonneg h0bE
  obtain ⟨jf, hjf1, hjf2, hjf3⟩ := hfail
  have hbB : b = B := by
    rcases Nat.lt_trichotomy b B with hlt | heq | hgt
    · exfalso
      have hle := bStart_succ_le hops hlt
      rcases hterm with hsome | hcov
      · obtain ⟨j0, hj0, -, hj0s, -⟩ := batchErr_last _ hsome
        have hcl0 := hclean j0 (by omega)
        rw [hcl0] at hj0s
        simp at hj0s
      · omega
    · exact heq
    · exfalso
      have hle := bStart_succ_le hops hgt
      have hcl0 := hcl jf (by omega)
      rw [hcl0] at hjf3
      simp at hjf3
  subst hbB
  refine ⟨hvis, ?_⟩
  have hsome : (batchErr fn dims (bEnd itp ops b).toNat).isSome = true := by
    apply batchErr_isSome
    exact ⟨jf, by omega, hjf3⟩
  obtain ⟨j, hj, h1, h2, h3⟩ := batchErr_last _ hsome
  have hnSb : ((bStart ops b).toNat : Int) = bStart ops b :=
    Int.toNat_of_nonneg h0b
  refine ⟨j, ?_, by omega, by rw [herr, h1], h2, ?_⟩
  · by_contra hcon
    push_neg at hcon
    have hcl0 := hclean j (by omega)
    rw [hcl0] at h2
    simp at h2
  · intro j' hlt hlt2
    exact h3 j' hlt (by omega)

/-- The visitor used in the C6 witness: it succeeds on indices 0 and 1 (the
first batch) and fails on indices 2 and 3 (the second batch) with distinct
errors. -/
def fnC6b : Visitor := fun _ i =>
  if i < 2 then none else if i = 2 then some (.userError 2) else some (.userError 3)

/-- Witness for C6 (amended) on the shape `[4]` with `OpsPerThread = 2`: the
failures sit in the *second* claimed batch `[2, 4)`; the run visits all four
indices and returns the failure at index 3, the last failing index of that
batch. -/
theorem claim_C6_amended_witness :
    (runSched ⟨[4],[4]⟩ fnC6b 2 [0, 0, 0, 0, 0, 0, 0] (initState ⟨[4],[4]⟩ 1)).visits =
      idxTrace [4] (bEnd ⟨[4],[4]⟩ 2 1).toNat ∧
    (runSched ⟨[4],[4]⟩ fnC6b 2 [0, 0, 0, 0, 0, 0, 0] (initState ⟨[4],[4]⟩ 1)).err =
      some (Err.userError 3) := by
  have hr : generalMapApplyRun ⟨[4],[4]⟩ fnC6b (some ⟨2, 1⟩)
      (runSched ⟨[4],[4]⟩ fnC6b 2 [0, 0, 0, 0, 0, 0, 0] (initState ⟨[4],[4]⟩ 1)) :=
    ⟨runSched_reach ⟨[4],[4]⟩ fnC6b 2 [0, 0, 0, 0, 0, 0, 0] (initState ⟨[4],[4]⟩ 1),
      by decide⟩
  have hclean : ∀ j : Nat, (j : Int) < bStart 2 1 →
      fnC6b (decodeDims [4] (j : Int)) (j : Int) = none := by
    intro j hj
    have hb : bStart 2 1 = 2 := by decide
    rw [hb] at hj
    have hj2 : j = 0 ∨ j = 1 := by omega
    rcases hj2 with rfl | rfl <;> decide
  have hmain := claim_C6_amended (show NewInterpreterSafe [4] = .ok ⟨[4],[4]⟩ by decide)
    fnC6b (show (1 : Int) ≤ 2 by omega) hr 1 (by decide) hclean
    ⟨3, by decide, by decide, by decide⟩
  refine ⟨hmain.1, ?_⟩
  obtain ⟨j, hj1, hj2, he, hs, hlast⟩ := hmain.2
  have hb2 : (bStart 2 1).toNat = 2 := by decide
  have hb4 : bEnd ⟨[4],[4]⟩ 2 1 = 4 := by decide
  rw [hb2] at hj1
  rw [hb4] at hj2
  have hj34 : j = 2 ∨ j = 3 := by omega
  rcases hj34 with rfl | rfl
  · exfalso
    have hnone := hlast 3 (by omega) (by rw [hb4]; omega)
    have hne : fnC6b (decodeDims [4] ((3 : Nat) : Int)) ((3 : Nat) : Int) ≠ none := by
      decide
    exact hne hnone
  · rw [he]
    decide

end Tensors
